import Mathlib

/-!
Verification of the keyword-driven sales Q&A engine (`py_server.py`).

The development shallowly embeds the pure core of the server:
`_norm` (text normalizer), `_periodo_key` (period-label parser),
`_to_numeric` (numeric coercion), `_fmt_currency` / `_fmt_percent`
(locale formatters), `_build_caches` (standing aggregates),
`_mom_simple` (month-over-month comparison), the `/ask` dispatcher,
and the `load_data` reload sequence.

Modelling conventions, fixed once here:
* Strings are Lean `String`s (lists of `Char`).  Unicode-dependent
  operations (`str.lower`, NFD decomposition, the `\w`/`\s`/`\d`
  regex classes) are modelled on the fragment the application works
  in: ASCII plus the Spanish letters á é í ó ú ü ñ (and their upper
  case forms).  Characters outside that fragment pass through
  `lower`/NFD unchanged and are not word characters.
* pandas numeric cells are `Option ℚ` (`none` = NaN, i.e. a missing
  or unparseable source cell); `pd.to_numeric(...).fillna(0)` is
  `toNumeric`.  Floats are modelled as rationals.
* pandas `sort_values` is modelled as a stable sort with NaN keys
  placed last (`na_position` defaults to `"last"`); claims settled
  below never depend on the order of tied keys, where the pandas
  quicksort gives no guarantee.
* A dataframe is a list of rows; `groupby(...).sum()` returns the
  per-group sums with group keys in ascending order (pandas
  `sort=True` default).
* `iloc[0]` / `iloc[-1]` on an empty frame raises `IndexError`; the
  branches that can raise are modelled in `Except String`.
-/

/-! ## Character classes (ASCII ranges of the regex classes used) -/

/-- Lower-case ASCII letter, the `[a-z]` class of `_periodo_key`'s regex. -/
def isLowAZ (c : Char) : Bool := 97 ≤ c.toNat && c.toNat ≤ 122

/-- ASCII digit, the `\d` class (modelled on ASCII). -/
def isDig (c : Char) : Bool := 48 ≤ c.toNat && c.toNat ≤ 57

/-- Whitespace, the `\s` class and `str.strip` (modelled on ASCII:
space, tab, newline, vertical tab, form feed, carriage return). -/
def isWsP (c : Char) : Bool :=
  c.toNat = 32 || c.toNat = 9 || c.toNat = 10 || c.toNat = 11 || c.toNat = 12 || c.toNat = 13

/-- Word character, the `\w` class (modelled on ASCII): letters,
digits and the underscore. -/
def isWordP (c : Char) : Bool :=
  (48 ≤ c.toNat && c.toNat ≤ 57) || (65 ≤ c.toNat && c.toNat ≤ 90) ||
  (97 ≤ c.toNat && c.toNat ≤ 122) || c.toNat = 95

/-- `str.lower` on the modelled fragment: ASCII `A–Z` and the
precomposed Spanish capitals Á É Í Ó Ú Ü Ñ map to their lower-case
forms; everything else is unchanged. -/
def pyLower (c : Char) : Char :=
  if 65 ≤ c.toNat && c.toNat ≤ 90 then Char.ofNat (c.toNat + 32)
  else if c.toNat = 193 then Char.ofNat 225   -- Á → á
  else if c.toNat = 201 then Char.ofNat 233   -- É → é
  else if c.toNat = 205 then Char.ofNat 237   -- Í → í
  else if c.toNat = 211 then Char.ofNat 243   -- Ó → ó
  else if c.toNat = 218 then Char.ofNat 250   -- Ú → ú
  else if c.toNat = 220 then Char.ofNat 252   -- Ü → ü
  else if c.toNat = 209 then Char.ofNat 241   -- Ñ → ñ
  else c

/-- NFD decomposition on the modelled fragment: the lower-case
precomposed Spanish letters split into base letter plus combining
mark; other characters are already decomposed. -/
def nfdChar (c : Char) : List Char :=
  if c.toNat = 225 then [Char.ofNat 97, Char.ofNat 769]    -- á → a + ́
  else if c.toNat = 233 then [Char.ofNat 101, Char.ofNat 769]
  else if c.toNat = 237 then [Char.ofNat 105, Char.ofNat 769]
  else if c.toNat = 243 then [Char.ofNat 111, Char.ofNat 769]
  else if c.toNat = 250 then [Char.ofNat 117, Char.ofNat 769]
  else if c.toNat = 252 then [Char.ofNat 117, Char.ofNat 776] -- ü → u + ̈
  else if c.toNat = 241 then [Char.ofNat 110, Char.ofNat 771] -- ñ → n + ̃
  else [c]

/-- Unicode category `Mn` (nonspacing combining mark), modelled as the
combining diacritical block U+0300–U+036F used by the decompositions. -/
def isMn (c : Char) : Bool := 768 ≤ c.toNat && c.toNat ≤ 879

/-- Characters that can appear in a fully normalized query: ASCII
lower-case letters, digits, the underscore, and the space.  (Proof
vocabulary for the idempotence of `_norm`.) -/
def isNormChar (c : Char) : Bool :=
  (97 ≤ c.toNat && c.toNat ≤ 122) || (48 ≤ c.toNat && c.toNat ≤ 57) ||
  c.toNat = 95 || c.toNat = 32

/-! ## `str.strip` and whitespace collapsing -/

/-- `str.strip()`: drop leading and trailing whitespace. -/
def pyStrip (l : List Char) : List Char :=
  ((l.dropWhile isWsP).reverse.dropWhile isWsP).reverse

/-- `re.sub(r"\s+", " ", ·)`: every maximal whitespace run becomes a
single space. -/
def collapseWs : List Char → List Char
  | [] => []
  | [c] => if isWsP c then [' '] else [c]
  | c :: d :: r =>
    if isWsP c && isWsP d then collapseWs (d :: r)
    else (if isWsP c then ' ' else c) :: collapseWs (d :: r)

/-! ## `_norm`: the text normalizer -/

/-- The character pipeline of `_norm` on a list of characters:
lower-case, NFD-decompose, drop `Mn` marks, replace every character
that is neither a word character nor whitespace by a space
(`re.sub(r"[^\w\s]", " ", ·)`), collapse whitespace runs, strip. -/
def normChars (l : List Char) : List Char :=
  pyStrip (collapseWs
    ((((l.map pyLower).flatMap nfdChar).filter (fun c => !isMn c)).map
      (fun c => if isWordP c || isWsP c then c else ' ')))

/-- `_norm`: the query normalizer.  The argument is optional because
the source guards with `(s or "")`: a null prompt normalizes to `""`. -/
def pyNorm (s : Option String) : String := String.mk (normChars ((s.getD "").data))

/-- `_norm` applied to a (non-null) string. -/
def pyNormStr (s : String) : String := pyNorm (some s)

/-! ## `_periodo_key`: the period-label parser -/

/-- The month-abbreviation table `MONTHS_ES` of the source. -/
def monthsEs : List (String × Nat) :=
  [("ene", 1), ("feb", 2), ("mar", 3), ("abr", 4), ("may", 5), ("jun", 6),
   ("jul", 7), ("ago", 8), ("sep", 9), ("sept", 9), ("oct", 10), ("nov", 11), ("dic", 12)]

/-- `MONTHS_ES.get`: look a key up in the abbreviation table. -/
def monthLookup (s : String) : Option Nat := (monthsEs.find? (fun p => p.1 = s)).map (·.2)

/-- The accent replacements of `_periodo_key`
(`.replace("é","e")...replace("ú","u")`, applied after `.lower()`),
fused with `pyLower` into one character map. -/
def lowerAccent (c : Char) : Char :=
  let c := pyLower c
  if c.toNat = 225 then Char.ofNat 97        -- á → a
  else if c.toNat = 233 then Char.ofNat 101  -- é → e
  else if c.toNat = 237 then Char.ofNat 105  -- í → i
  else if c.toNat = 243 then Char.ofNat 111  -- ó → o
  else if c.toNat = 250 then Char.ofNat 117  -- ú → u
  else c

/-- `(\d{4})`: read exactly four digits from the head of the input
(anything may follow, `re.match` does not anchor the end). -/
def digit4 : List Char → Option Nat
  | a :: b :: c :: d :: _ =>
    if isDig a && isDig b && isDig c && isDig d then
      some ((a.toNat - 48) * 1000 + (b.toNat - 48) * 100 + (c.toNat - 48) * 10 + (d.toNat - 48))
    else none
  | _ => none

/-- The part of the regex after the letter group: an optional literal
dot, optional whitespace, an optional `-` or `/` separator, optional
whitespace, then four digits.  Each optional/starred piece is
deterministic here because no character matches two consecutive
pieces, so greedy matching needs no backtracking. -/
def afterMon (cs : List Char) : Option Nat :=
  let cs1 := match cs with
    | c :: r => if c = '.' then r else c :: r
    | [] => []
  let cs2 := cs1.dropWhile isWsP
  let cs3 := match cs2 with
    | c :: r => if c = '-' || c = '/' then r else c :: r
    | [] => []
  digit4 (cs3.dropWhile isWsP)

/-- Try the letter group `([a-z]{3,5})` at length `k`: the first `k`
characters must all be lower-case letters, and the rest of the
pattern must match what follows. -/
def tryMon (cs : List Char) (k : Nat) : Option (List Char × Nat) :=
  let pre := cs.take k
  if pre.length = k && pre.all isLowAZ then
    match afterMon (cs.drop k) with
    | some y => some (pre, y)
    | none => none
  else none

/-- `re.match` of the full period pattern (three-to-five letters, an
optional dot, an optional dash-or-slash separator with optional
surrounding whitespace, four digits): the greedy letter group
backtracks from five letters down to three. -/
def reMatchPeriodo (cs : List Char) : Option (List Char × Nat) :=
  ((tryMon cs 5).orElse (fun _ => tryMon cs 4)).orElse (fun _ => tryMon cs 3)

/-- `"sept"`-vs-3-letter prefix choice: `mon[:4] if mon.startswith("sept") else mon[:3]`. -/
def monAbbrev (mon : List Char) : List Char :=
  if mon.take 4 = ['s', 'e', 'p', 't'] then mon.take 4 else mon.take 3

/-- `_periodo_key`: parse a period label such as `"Jul-2025"` to the
sortable key `year*100 + month`.  (The source's guard for non-string
cells is outside the model: labels here are strings.  The source's
`mon.replace(".", "")` is the identity because the captured group
contains only letters.) -/
def periodoKey (s : String) : Option Nat :=
  let cs := (pyStrip s.data).map lowerAccent
  match reMatchPeriodo cs with
  | none => none
  | some (mon, year) =>
    match monthLookup (String.mk (monAbbrev mon)) with
    | some m => some (year * 100 + m)
    | none => none

-- temporary sanity checks

/-! ## Kernel-reducible rational arithmetic

The field operations of `ℚ` do not reduce inside the kernel in this
toolchain, so the embedded code performs its arithmetic through
explicit normalized-fraction constructors (`Rat.divInt` reduces).
`qAdd_eq` … `qDiv_eq` below prove them equal to the field
operations, so algebraic reasoning is unaffected. -/

/-- A rational from an integer, through the reducible constructor. -/
def intQ (n : ℤ) : ℚ := Rat.divInt n 1

/-- Addition on `ℚ`, kernel-reducible. -/
def qAdd (a b : ℚ) : ℚ := Rat.divInt (a.num * b.den + b.num * a.den) (a.den * b.den)

/-- Negation on `ℚ`, kernel-reducible. -/
def qNeg (a : ℚ) : ℚ := Rat.divInt (-a.num) a.den

/-- Subtraction on `ℚ`, kernel-reducible. -/
def qSub (a b : ℚ) : ℚ := qAdd a (qNeg b)

/-- Multiplication on `ℚ`, kernel-reducible. -/
def qMul (a b : ℚ) : ℚ := Rat.divInt (a.num * b.num) (a.den * b.den)

/-- Division on `ℚ`, kernel-reducible (`0` on a zero divisor, the
`ℚ` convention; the embedded code only divides after a zero guard). -/
def qDiv (a b : ℚ) : ℚ := Rat.divInt (a.num * b.den) (a.den * b.num)

/-! ## `_fmt_currency` / `_fmt_percent`: locale formatters -/

/-- Decimal digits of a natural number, most significant first; the
first argument is fuel (structural recursion keeps the definition
kernel-reducible), always called with enough of it. -/
def natDigitsAux : Nat → Nat → List Char → List Char
  | 0, _, acc => acc
  | fuel + 1, n, acc =>
    if n = 0 then acc else natDigitsAux fuel (n / 10) (Char.ofNat (n % 10 + 48) :: acc)

/-- Decimal digit string of a natural number (`"0"` for zero). -/
def natDigits (n : Nat) : List Char :=
  if n = 0 then ['0'] else natDigitsAux n n []

/-- Insert a grouping comma after every third digit, working on the
reversed digit list. -/
def groupRev : List Char → List Char
  | a :: b :: c :: d :: r => a :: b :: c :: ',' :: groupRev (d :: r)
  | l => l

/-- Python's `,` thousands grouping of an integer digit string. -/
def groupDigits (ds : List Char) : List Char := (groupRev ds.reverse).reverse

/-- Floor of a rational as an integer (`Int.fdiv` floors because the
denominator is positive). -/
def floorQ (q : ℚ) : ℤ := Int.fdiv q.num (q.den : ℤ)

/-- Round to the nearest integer, ties to even — the rounding of
Python's fixed-point `format`. -/
def roundHalfEven (q : ℚ) : ℤ :=
  let f := floorQ q
  let r : ℚ := qSub q (intQ f)
  if r < Rat.divInt 1 2 then f
  else if Rat.divInt 1 2 < r then f + 1
  else if f % 2 = 0 then f else f + 1

/-- Pad a digit string on the left with zeros to width `d`. -/
def padZeros (d : Nat) (ds : List Char) : List Char :=
  List.replicate (d - ds.length) '0' ++ ds

/-- Python `f"{x:,.{d}f}"` on the modelled rational value: fixed-point
with `d` decimals, comma thousands grouping, and a leading `-` for
negative values.  (Python renders a negative value rounding to zero
as `-0.00`; the model keeps that by testing the sign of the value.) -/
def pyFmtFloat (q : ℚ) (d : Nat) : List Char :=
  let scaled := roundHalfEven (qMul q (intQ ((10 : ℤ) ^ d)))
  let mag := scaled.natAbs
  let ip := mag / 10 ^ d
  let fp := mag % 10 ^ d
  (if q < 0 then ['-'] else []) ++ groupDigits (natDigits ip) ++
    (if d = 0 then [] else '.' :: padZeros d (natDigits fp))

/-- The separator swap
`s.replace(",", "X").replace(".", ",").replace("X", ".")` — each
`replace` of a one-character pattern is a character map. -/
def swapSeps (l : List Char) : List Char :=
  ((l.map (fun c => if c = ',' then 'X' else c)).map
    (fun c => if c = '.' then ',' else c)).map
    (fun c => if c = 'X' then '.' else c)

/-- A cell value fed to a formatter: either a number, or a value on
which Python's `float(v)` raises (modelled by `text`). -/
inductive PyVal where
  | num (q : ℚ)
  | text (s : String)
deriving DecidableEq

/-- `_fmt_currency` with an explicit decimals argument. -/
def fmtCurrencyD (v : PyVal) (d : Nat) : String :=
  match v with
  | .num q => "$ " ++ String.mk (swapSeps (pyFmtFloat q d))
  | .text s => s

/-- `_fmt_currency` with the default `decimals=2`. -/
def fmtCurrency (v : PyVal) : String := fmtCurrencyD v 2

/-- `_fmt_percent` with an explicit decimals argument: multiply by
100 first, append `" %"`. -/
def fmtPercentD (v : PyVal) (d : Nat) : String :=
  match v with
  | .num q => String.mk (swapSeps (pyFmtFloat (qMul q (intQ 100)) d)) ++ " %"
  | .text s => s

/-- `_fmt_percent` with the default `decimals=2`. -/
def fmtPercent (v : PyVal) : String := fmtPercentD v 2

/-- Shorthand: format a known-numeric total as currency. -/
def fmtC (q : ℚ) : String := fmtCurrency (PyVal.num q)

/-- Shorthand: format a known-numeric rate as a percentage. -/
def fmtP (q : ℚ) : String := fmtPercent (PyVal.num q)

-- temporary sanity checks

/-! ## Data model -/

/-- The column constants of the source. -/
def colTotal : String := "Total"

/-- Column `Periodo`. -/
def colPeriodo : String := "Periodo"

/-- Column `Líneas móviles`. -/
def colMovil : String := "Líneas móviles"

/-- Column `Internet hogar`. -/
def colHogar : String := "Internet hogar"

/-- Column `Servicios adicionales`. -/
def colServ : String := "Servicios adicionales"

/-- Column `Notas de ajuste`. -/
def colAjuste : String := "Notas de ajuste"

/-- One row of the sheet as read by pandas, before numeric coercion:
the numeric cells are `Option ℚ` (`none` is NaN — a missing or
unparseable source cell). -/
structure RawRecord where
  cliente : String
  emisora : String
  tipo : String
  periodo : String
  total : Option ℚ
  movil : Option ℚ
  hogar : Option ℚ
  serv : Option ℚ
  ajuste : Option ℚ
deriving DecidableEq

/-- `_to_numeric` on one cell: `pd.to_numeric(·, errors="coerce").fillna(0)`
turns a NaN into `0` and keeps a number. -/
def toNumeric (c : Option ℚ) : ℚ := c.getD 0

/-- A billing record after `load_data` coerced the `Total` and the
four service columns (`_to_numeric` applied column-wise). -/
structure Record where
  cliente : String
  emisora : String
  tipo : String
  periodo : String
  total : ℚ
  movil : ℚ
  hogar : ℚ
  serv : ℚ
  ajuste : ℚ
deriving DecidableEq

/-- The numeric coercion of `load_data` on a raw row. -/
def loadRec (r : RawRecord) : Record :=
  ⟨r.cliente, r.emisora, r.tipo, r.periodo,
   toNumeric r.total, toNumeric r.movil, toNumeric r.hogar, toNumeric r.serv, toNumeric r.ajuste⟩

/-! ## `groupby(...).sum()` -/

/-- Add `v` to the entry of key `k` in an association list of running
group sums, appending a new entry when the key is new. -/
def addTo [DecidableEq κ] (k : κ) (v : ℚ) : List (κ × ℚ) → List (κ × ℚ)
  | [] => [(k, v)]
  | (k', v') :: r => if k' = k then (k', qAdd v' v) :: r else (k', v') :: addTo k v r

/-- Accumulate the group sums of `xs` in first-appearance order. -/
def accumGroups [DecidableEq κ] (key : α → κ) (val : α → ℚ) (xs : List α) : List (κ × ℚ) :=
  xs.foldl (fun acc x => addTo (key x) (val x) acc) []

/-- Code-point lexicographic order on character lists — Python's
string order, written out so that it reduces in the kernel. -/
def strLeChars : List Char → List Char → Bool
  | x :: xs, y :: ys => if x = y then strLeChars xs ys else decide (x < y)
  | [], _ => true
  | _, _ => false

/-- Code-point lexicographic order on strings. -/
def strLe (a b : String) : Bool := strLeChars a.data b.data

/-- Lexicographic order on string pairs, the pandas order for a
two-column `groupby`. -/
def pairLe (a b : String × String) : Bool :=
  if a.1 = b.1 then strLe a.2 b.2 else strLe a.1 b.1

/-- A `groupby` over a general key: per-group sums with the group
keys in ascending `le` order (the pandas `sort=True` default). -/
def groupSumBy [DecidableEq κ] (le : κ → κ → Bool) (key : α → κ) (val : α → ℚ)
    (xs : List α) : List (κ × ℚ) :=
  List.insertionSort (fun a b => le a.1 b.1 = true) (accumGroups key val xs)

/-- `groupby(key)[val].sum()` for a single string key. -/
def groupSum (key : α → String) (val : α → ℚ) (xs : List α) : List (String × ℚ) :=
  groupSumBy strLe key val xs

/-! ## Sorting by period key (pandas `sort_values`, NaN last) -/

/-- Order on optional period keys: NaN (`none`) sorts after every
real key (`sort_values` keeps NaN rows last). -/
def pkLe : Option Nat → Option Nat → Bool
  | _, none => true
  | none, some _ => false
  | some a, some b => a ≤ b

/-- `_add_period_key` followed by `sort_values("_period_key")` on a
(period, value) frame. -/
def sortByPK (rows : List (String × ℚ)) : List (String × ℚ) :=
  List.insertionSort (fun a b => pkLe (periodoKey a.1) (periodoKey b.1) = true) rows

/-- `sort_values(value, ascending=False)` on a (key, value) frame. -/
def sortValsDesc (rows : List (String × ℚ)) : List (String × ℚ) :=
  List.insertionSort (fun a b => b.2 ≤ a.2) rows

/-! ## `_build_caches` -/

/-- Sum a numeric column over all records (kernel-reducible fold). -/
def sumBy (val : α → ℚ) (xs : List α) : ℚ :=
  xs.foldl (fun a x => qAdd a (val x)) 0

/-- The four standing aggregate tables built by `_build_caches`. -/
structure Caches where
  gByPeriod : List (String × ℚ)
  gByEmisora : List (String × ℚ)
  gServices : List (String × ℚ)
  topClients : List (String × ℚ)
deriving DecidableEq

/-- `_build_caches`: totals by period (sorted chronologically), by
emitter (descending), the four service-column sums (in column order),
and totals by client (descending).  The `_to_numeric` calls inside
`_build_caches` are the identity here because `load_data` already
coerced the columns. -/
def buildCaches (recs : List Record) : Caches :=
  ⟨sortByPK (groupSum (fun r => r.periodo) (fun r => r.total) recs),
   sortValsDesc (groupSum (fun r => r.emisora) (fun r => r.total) recs),
   [(colMovil, sumBy (fun r => r.movil) recs), (colHogar, sumBy (fun r => r.hogar) recs),
    (colServ, sumBy (fun r => r.serv) recs), (colAjuste, sumBy (fun r => r.ajuste) recs)],
   sortValsDesc (groupSum (fun r => r.cliente) (fun r => r.total) recs)⟩

/-! ## `_mom_simple`: the month-over-month comparison -/

/-- The dictionary `_mom_simple` returns. -/
structure MomRow where
  periodoActual : String
  totalActual : ℚ
  periodoAnterior : String
  totalAnterior : ℚ
  varAbs : ℚ
  varPct : ℚ
deriving DecidableEq

/-- `_mom_simple`: sort the (period, total) rows by period key, give
up on fewer than two rows, otherwise compare the last row (current)
with the one before it (previous); the relative variation is `0`
when the previous total is `0`. -/
def momSimple (rows : List (String × ℚ)) : Option MomRow :=
  let d := sortByPK rows
  if d.length < 2 then none
  else
    match d.reverse with
    | p :: q :: _ =>
      some ⟨p.1, p.2, q.1, q.2, qSub p.2 q.2,
            if q.2 ≠ 0 then qDiv (qSub p.2 q.2) q.2 else 0⟩
    | _ => none

/-! ## Substring search and parameter extraction (`in`, `re.search`) -/

/-- Does `hay` start with `sub`?  (Helper for substring search.) -/
def leadEq : List Char → List Char → Bool
  | _, [] => true
  | [], _ :: _ => false
  | a :: as, b :: bs => a = b && leadEq as bs

/-- Substring test on character lists: Python's `sub in hay`. -/
def hasSub : List Char → List Char → Bool
  | [], sub => sub.isEmpty
  | a :: r, sub => leadEq (a :: r) sub || hasSub r sub

/-- Python's `needle in hay` on strings. -/
def strContains (hay needle : String) : Bool := hasSub hay.data needle.data

/-- `Series.str.contains(name, case=False, na=False)` on one cell:
case-insensitive substring test (lower-casing both sides on the
modelled fragment). -/
def containsCI (hay needle : String) : Bool :=
  hasSub (hay.data.map pyLower) (needle.data.map pyLower)

/-- Numeric value of a digit run (`int(...)`). -/
def digitsToNat (ds : List Char) : Nat :=
  ds.foldl (fun a c => a * 10 + (c.toNat - 48)) 0

/-- One attempt of `re.search(r"top\s*(\d+)", t)` at the current
position: literal `top`, optional whitespace, at least one digit. -/
def tryTopAt : List Char → Option Nat
  | 't' :: 'o' :: 'p' :: rest =>
    let rest2 := rest.dropWhile isWsP
    let ds := rest2.takeWhile isDig
    if ds.isEmpty then none else some (digitsToNat ds)
  | _ => none

/-- The scan of `re.search`: try every position left to right. -/
def findTopN : List Char → Option Nat
  | [] => none
  | c :: r =>
    match tryTopAt (c :: r) with
    | some n => some n
    | none => findTopN r

/-- Extract the `top <N>` count from the normalized text. -/
def extractTopN (t : String) : Option Nat := findTopN t.data

/-- Case-insensitive character comparison (the `re.IGNORECASE` flag),
on the modelled fragment. -/
def caseEq (a b : Char) : Bool := pyLower a = pyLower b

/-- The accented Spanish letters of the modelled fragment (word
characters for Python's Unicode `\w`). -/
def isAccented (c : Char) : Bool :=
  [225, 233, 237, 243, 250, 252, 241, 193, 201, 205, 211, 218, 220, 209].contains c.toNat

/-- The capture class of the client-name pattern: word characters,
whitespace, `-` and `#`. -/
def nameChar (c : Char) : Bool :=
  isWordP c || isAccented c || isWsP c || c = '-' || c = '#'

/-- One attempt of `re.search(r"cliente\s*([\w\s\-\#]+)", raw, re.IGNORECASE)`
at the current position: the literal `cliente` (case-insensitively),
then a non-empty greedy run of capture-class characters.  (Any
whitespace the `\s*` takes comes out of the same run and is stripped
from the captured name below, so it needs no separate handling.) -/
def tryClienteAt : List Char → Option (List Char)
  | c1 :: c2 :: c3 :: c4 :: c5 :: c6 :: c7 :: rest =>
    if caseEq c1 'c' && caseEq c2 'l' && caseEq c3 'i' && caseEq c4 'e' &&
       caseEq c5 'n' && caseEq c6 't' && caseEq c7 'e' then
      let run := rest.takeWhile nameChar
      if run.isEmpty then none else some run
    else none
  | _ => none

/-- The scan of `re.search` for the client-name pattern. -/
def findClienteName : List Char → Option (List Char)
  | [] => none
  | c :: r =>
    match tryClienteAt (c :: r) with
    | some run => some run
    | none => findClienteName r

/-- `m.group(1).strip()`: the client name extracted from the
original (non-normalized) prompt, `none` when the pattern does not
match anywhere. -/
def extractName (raw : String) : Option String :=
  (findClienteName raw.data).map (fun run => String.mk (pyStrip run))

/-! ## The `/ask` dispatcher -/

/-- A rendered table: the title line and the (already formatted)
column headers and data rows handed to `_df_to_md_table`.  The
markdown layout itself is presentation and is not modelled. -/
structure MdTable where
  title : String
  header : List String
  rows : List (List String)
deriving DecidableEq

/-- One `/ask` response: a plain message in the `md` field, a table
in the `md` field, or the structured no-match summary. -/
inductive Resp where
  | msg (s : String)
  | table (t : MdTable)
  | answer (filas : Nat) (total : String) (clientesUnicos : Nat) (loadedAt : String)
deriving DecidableEq

/-- The server state the handlers read: the loaded records `DF`, the
four standing caches, and `LAST_LOAD_TS`. -/
structure SrvState where
  df : List Record
  caches : Caches
  loadedAt : String
deriving DecidableEq

/-- `iloc[0]`: the first row, an `IndexError` on an empty frame. -/
def ilocHead : List α → Except String α
  | [] => .error "IndexError: single positional indexer is out-of-bounds"
  | a :: _ => .ok a

/-- `Series.max()` with the default `skipna=True`: NaN keys are
skipped; all-NaN (or empty) input yields NaN (`none`). -/
def maxKeySkipNa (ks : List (Option Nat)) : Option Nat :=
  ks.foldl
    (fun acc k =>
      match acc, k with
      | none, x => x
      | some a, none => some a
      | some a, some b => some (max a b))
    none

/-- `sorted(column.unique())` on the period-key column: distinct real
keys in ascending order; a NaN entry (if any) is kept and modelled
at the end.  (CPython's sort leaves NaN placement dependent on input
order; the claims below only evaluate this where the placement is
irrelevant.) -/
def uniqSorted (ks : List (Option Nat)) : List (Option Nat) :=
  let d := ks.dedup
  (List.insertionSort (fun a b : Nat => a ≤ b) (d.filterMap id)).map some ++
    (if d.contains (none : Option Nat) then [none] else [])

/-- NaN-aware equality of period-key cells: a NaN compares unequal
to everything, itself included. -/
def optEq : Option Nat → Option Nat → Bool
  | some a, some b => a = b
  | _, _ => false

/-- Python truthiness of the `prev_key` variable: `None` is falsy,
NaN is truthy, an integer key is truthy iff nonzero. -/
def pkTruthy : Option (Option Nat) → Bool
  | none => false
  | some none => true
  | some (some k) => k != 0

/-- The `Top N clientes en el último mes` branch (source lines
214-238): group by (client, period), sort by period key, find the
latest and previous keys, rank the latest period's clients, join the
previous period's totals (0 when absent) and compute the relative
variation.  `merged[COL_PERIODO].iloc[0]` raises on an empty frame,
hence the `Except`. -/
def topUltimo (df : List Record) (n : Nat) : Except String Resp :=
  let tdf0 := groupSumBy pairLe (fun r => (r.cliente, r.periodo)) (fun r => r.total) df
  let tdf := List.insertionSort
    (fun a b => pkLe (periodoKey a.1.2) (periodoKey b.1.2) = true) tdf0
  if tdf.isEmpty then .ok (.msg "No hay datos suficientes.")
  else
    let keys := tdf.map (fun r => periodoKey r.1.2)
    let lastKey := maxKeySkipNa keys
    let uniqKeys := uniqSorted keys
    let prevKey : Option (Option Nat) :=
      if 2 ≤ uniqKeys.length then some (uniqKeys.getD (uniqKeys.length - 2) none) else none
    let curPer := tdf.filter (fun r => optEq (periodoKey r.1.2) lastKey)
    let topCur := (List.insertionSort (fun a b => b.2 ≤ a.2) curPer).take n
    let prevRows := tdf.filter (fun r => optEq (periodoKey r.1.2) (prevKey.getD none))
    let merged := topCur.map (fun r =>
      (r, if pkTruthy prevKey
          then ((prevRows.find? (fun p => p.1.1 = r.1.1)).map (fun p => p.2)).getD 0
          else 0))
    let withVar := merged.map (fun rp =>
      (rp.1, rp.2, if rp.2 ≠ 0 then qDiv (qSub rp.1.2 rp.2) rp.2 else 0))
    do
      let periodoActual ← ilocHead (withVar.map (fun rp => rp.1.1.2))
      let periodoAnterior ←
        if pkTruthy prevKey then ilocHead (prevRows.map (fun r => r.1.2)) else .ok "—"
      .ok (.table
        ⟨"Top " ++ toString n ++ " clientes en " ++ periodoActual ++
            " (vs " ++ periodoAnterior ++ "):",
         ["Cliente", "Facturado", "Variación %"],
         withVar.map (fun rp => [rp.1.1.1, fmtC rp.1.2, fmtP rp.2.2])⟩)

/-- The per-emitter variation branch (source lines 249-264): group by
(emitter, period), run `_mom_simple` per emitter (iterating emitters
in ascending order, the `groupby` iteration order), keep the
emitters with a comparison, sort descending by relative variation. -/
def emisoraVariation (df : List Record) : Except String Resp :=
  let dd := groupSumBy pairLe (fun r => (r.emisora, r.periodo)) (fun r => r.total) df
  let ems := (dd.map (fun r => r.1.1)).dedup
  let rows := ems.filterMap (fun em =>
    (momSimple ((dd.filter (fun r => r.1.1 = em)).map (fun r => (r.1.2, r.2)))).map
      (fun m => (em, m)))
  if rows.isEmpty then .ok (.msg "No hay suficientes meses para variación por emisora.")
  else
    let sorted := List.insertionSort (fun a b : String × MomRow => b.2.varPct ≤ a.2.varPct) rows
    .ok (.table
      ⟨"Variación mensual por emisora (últimos 2 meses)",
       ["Emisora", "Periodo_Actual", "Total_Actual", "Periodo_Anterior", "Total_Anterior",
        "Var_Abs", "Var_%"],
       sorted.map (fun em => [em.1, em.2.periodoActual, fmtC em.2.totalActual,
         em.2.periodoAnterior, fmtC em.2.totalAnterior, fmtC em.2.varAbs, fmtP em.2.varPct])⟩)

/-- The per-service variation branch (source lines 273-291): sum the
four service columns per period, sort by period key, compare the
last two periods column by column. -/
def servicioVariation (df : List Record) : Except String Resp :=
  let keys := List.insertionSort (fun a b => strLe a b = true) ((df.map (fun r => r.periodo)).dedup)
  let tmp := keys.map (fun p =>
    let sub := df.filter (fun r => r.periodo = p)
    (p, (sumBy (fun r => r.movil) sub, sumBy (fun r => r.hogar) sub,
         sumBy (fun r => r.serv) sub, sumBy (fun r => r.ajuste) sub)))
  let d := List.insertionSort (fun a b => pkLe (periodoKey a.1) (periodoKey b.1) = true) tmp
  if d.length < 2 then .ok (.msg "No hay suficientes meses para variación por servicio.")
  else
    match d.reverse with
    | p :: q :: _ =>
      let mkRow := fun (nmCol : String) (cur prev : ℚ) =>
        [nmCol, p.1, fmtC cur, q.1, fmtC prev, fmtC (qSub cur prev),
         fmtP (if prev ≠ 0 then qDiv (qSub cur prev) prev else 0)]
      .ok (.table
        ⟨"Variación mensual por servicio (últimos 2 meses)",
         ["Servicio", "Periodo_Actual", "Total_Actual", "Periodo_Anterior", "Total_Anterior",
          "Var_Abs", "Var_%"],
         [mkRow colMovil p.2.1 q.2.1, mkRow colHogar p.2.2.1 q.2.2.1,
          mkRow colServ p.2.2.2.1 q.2.2.2.1, mkRow colAjuste p.2.2.2.2 q.2.2.2.2]⟩)
    | _ => .ok (.msg "No hay suficientes meses para variación por servicio.")

/-- The specific-client branch (source lines 299-324), entered with a
successfully extracted name: filter by case-insensitive substring,
report a not-found message on an empty match, otherwise group by
period and either run the month-over-month comparison (when the
normalized text asks for a variation) or list the per-period totals. -/
def clienteBranch (st : SrvState) (name : String) (t : String) : Except String Resp :=
  let filt := st.df.filter (fun r => containsCI r.cliente name)
  if filt.isEmpty then .ok (.msg ("No se encontró el cliente: " ++ name))
  else
    let byp := groupSum (fun r => r.periodo) (fun r => r.total) filt
    if strContains t "variac" || strContains t "variacion" then
      match momSimple byp with
      | none => .ok (.msg ("No hay suficientes meses para calcular variación de " ++ name ++ "."))
      | some mom => .ok (.table
          ⟨"Variación mensual — " ++ name,
           ["Cliente", "Periodo_Actual", "Total_Actual", "Periodo_Anterior", "Total_Anterior",
            "Var_Abs", "Var_%"],
           [[name, mom.periodoActual, fmtC mom.totalActual, mom.periodoAnterior,
             fmtC mom.totalAnterior, fmtC mom.varAbs, fmtP mom.varPct]]⟩)
    else
      .ok (.table ⟨"Cliente: " ++ name, ["Periodo", "Total"],
        (sortByPK byp).map (fun r => [r.1, fmtC r.2])⟩)

/-- The tail of the dispatcher reached when no earlier branch fired
(and also when the client keyword matched but the name pattern did
not): the total month-over-month branch, then the structured
summary. -/
def askFallthrough (st : SrvState) (t : String) : Except String Resp :=
  if strContains t "variac" || strContains t "variacion" || strContains t "mom" then
    let dd := groupSum (fun r => r.periodo) (fun r => r.total) st.df
    match momSimple dd with
    | none => .ok (.msg "No hay suficientes meses para calcular la variación.")
    | some mom => .ok (.table
        ⟨"Variación mensual total (últimos 2 meses)",
         ["Periodo_Actual", "Total_Actual", "Periodo_Anterior", "Total_Anterior",
          "Var_Abs", "Var_%"],
         [[mom.periodoActual, fmtC mom.totalActual, mom.periodoAnterior,
           fmtC mom.totalAnterior, fmtC mom.varAbs, fmtP mom.varPct]]⟩)
  else
    .ok (.answer st.df.length (fmtC (sumBy (fun r => r.total) st.df))
      ((st.df.map (fun r => r.cliente)).dedup.length) st.loadedAt)

/-- The `/ask` dispatcher (source lines 199-350): the ordered
keyword checks over the normalized prompt, first match wins. -/
def ask (st : SrvState) (prompt : String) : Except String Resp :=
  let raw := prompt
  let t := pyNormStr raw
  if strContains t "top" && strContains t "cliente" && !strContains t "ultimo" then
    let n := (extractTopN t).getD 5
    .ok (.table ⟨"Top " ++ toString n ++ " clientes (acumulado):", ["Cliente", "Facturado"],
      (st.caches.topClients.take n).map (fun r => [r.1, fmtC r.2])⟩)
  else if strContains t "top" && strContains t "cliente" &&
      (strContains t "ultimo" || strContains t "mes") then
    topUltimo st.df ((extractTopN t).getD 5)
  else if strContains t "por mes" || strContains t "total por mes" || strContains t "mensual" then
    .ok (.table ⟨"Total mensual:", ["Periodo", "Total"],
      st.caches.gByPeriod.map (fun r => [r.1, fmtC r.2])⟩)
  else if strContains t "emisora" || strContains t "canal" then
    if strContains t "variac" || strContains t "variacion" then emisoraVariation st.df
    else .ok (.table ⟨"Ventas por emisora:", ["Emisora", "Total"],
      st.caches.gByEmisora.map (fun r => [r.1, fmtC r.2])⟩)
  else if strContains t "servicio" || strContains t "tipo" then
    if strContains t "variac" || strContains t "variacion" then servicioVariation st.df
    else .ok (.table ⟨"Ventas por tipo de servicio:", ["Servicio", "Importe"],
      st.caches.gServices.map (fun r => [r.1, fmtC r.2])⟩)
  else if strContains t "cliente" then
    match extractName raw with
    | some name => clienteBranch st name t
    | none => askFallthrough st t
  else askFallthrough st t

/-! ## `load_data`: the reload sequence -/

/-- The observable states of one `load_data` run starting from `st`:
the source first assigns the global `DF`, then (after rebuilding)
the four cache globals, then the timestamp.  Each list entry is the
state after one of those global updates; a concurrent reader can
observe any of them. -/
def reloadStates (st : SrvState) (newRecs : List Record) (newTs : String) : List SrvState :=
  [st,
   { st with df := newRecs },
   { st with df := newRecs, caches := buildCaches newRecs },
   ⟨newRecs, buildCaches newRecs, newTs⟩]

/-- The state after `load_data` finishes (it does not depend on the
state the reload started from). -/
def reloadFinal (_st : SrvState) (newRecs : List Record) (newTs : String) : SrvState :=
  ⟨newRecs, buildCaches newRecs, newTs⟩

/-- A state is consistent when its caches are the ones built from
its record set. -/
def consistent (st : SrvState) : Prop := st.caches = buildCaches st.df

deriving instance DecidableEq for Except

/-! ## Spec-side definitions and concrete data for the claims -/

/-- Alphanumeric character, following the spec's wording
("alphanumeric") rather than the regex class of the source. -/
def isAlnumSpec (c : Char) : Bool :=
  (48 ≤ c.toNat && c.toNat ≤ 57) || (65 ≤ c.toNat && c.toNat ≤ 90) ||
  (97 ≤ c.toNat && c.toNat ≤ 122)

/-- The normalizer exactly as the spec sentence describes it
(replace every character that is not alphanumeric or whitespace by a
space): a second definition written from the spec's words, used to
compare the spec sentence with the source behaviour. -/
def specNormClaim (s : String) : String :=
  String.mk (pyStrip (collapseWs
    ((((s.data.map pyLower).flatMap nfdChar).filter (fun c => !isMn c)).map
      (fun c => if isAlnumSpec c || isWsP c then c else ' '))))

/-- The normalizer as the amended spec sentence describes it: the
replaced characters are those that are not alphanumeric, not an
underscore, and not whitespace (Python's `\w` keeps the underscore). -/
def specNormAmended (s : String) : String :=
  String.mk (pyStrip (collapseWs
    ((((s.data.map pyLower).flatMap nfdChar).filter (fun c => !isMn c)).map
      (fun c => if isAlnumSpec c || c = '_' || isWsP c then c else ' '))))

/-- Value of a key in an association list of group sums (`0` when
absent); the specification hook for the `groupby` lemmas. -/
def findV [DecidableEq k] (k0 : k) (l : List (k × ℚ)) : ℚ :=
  ((l.find? (fun p => p.1 = k0)).map (fun p => p.2)).getD 0

/-- A small concrete dataset: one client with two parseable periods
plus a second client. -/
def demoRecs : List Record :=
  [⟨"ACME S.A.", "Norte", "Corp", "Jul-2025", 100, 0, 0, 0, 0⟩,
   ⟨"ACME S.A.", "Norte", "Corp", "Jun-2025", 80, 0, 0, 0, 0⟩,
   ⟨"Beta SRL", "Sur", "Pyme", "Jul-2025", 50, 0, 0, 0, 0⟩]

/-- The server state for `demoRecs`. -/
def demoSt : SrvState := ⟨demoRecs, buildCaches demoRecs, "2025-01-01 00:00:00"⟩

/-- A non-empty dataset in which no period label parses. -/
def badPeriodRecs : List Record :=
  [⟨"A", "E", "T", "garbage", 10, 0, 0, 0, 0⟩,
   ⟨"B", "E", "T", "junk", 5, 0, 0, 0, 0⟩]

/-- Raw rows with missing/unparseable numeric cells (the `none`s),
for the aggregate-totals witness. -/
def demoRaws : List RawRecord :=
  [⟨"ACME S.A.", "Norte", "Corp", "Jul-2025", some 10, none, some 2, none, some 1⟩,
   ⟨"ACME S.A.", "Norte", "Corp", "Jun-2025", none, some 3, none, some 4, none⟩,
   ⟨"Beta SRL", "Sur", "Pyme", "Jul-2025", some 7, some 5, none, none, none⟩]

/-- Old records for the reload interleaving counterexample. -/
def oldRecsRel : List Record := [⟨"A", "E", "T", "Jul-2025", 1, 0, 0, 0, 0⟩]

/-- New records for the reload interleaving counterexample. -/
def newRecsRel : List Record := [⟨"A", "E", "T", "Jul-2025", 2, 0, 0, 0, 0⟩]

/-! ## Bridge lemmas: the reducible rational operations are the field operations -/

theorem mulDenNum (a : ℚ) : a * (a.den : ℚ) = (a.num : ℚ) := by
  have ha : (a.den : ℚ) ≠ 0 := Nat.cast_ne_zero.mpr a.den_nz
  nth_rw 1 [← Rat.num_div_den a]
  exact div_mul_cancel₀ _ ha

theorem intQ_eq (n : ℤ) : intQ n = (n : ℚ) := by
  rw [intQ, Rat.divInt_eq_div]
  push_cast
  exact div_one _

theorem qAdd_eq (a b : ℚ) : qAdd a b = a + b := by
  have ha : (a.den : ℚ) ≠ 0 := Nat.cast_ne_zero.mpr a.den_nz
  have hb : (b.den : ℚ) ≠ 0 := Nat.cast_ne_zero.mpr b.den_nz
  unfold qAdd
  rw [Rat.divInt_eq_div]
  push_cast
  rw [div_eq_iff (mul_ne_zero ha hb)]
  linear_combination (-(b.den : ℚ)) * mulDenNum a + (-(a.den : ℚ)) * mulDenNum b

theorem qNeg_eq (a : ℚ) : qNeg a = -a := by
  unfold qNeg
  rw [Rat.divInt_eq_div]
  push_cast
  rw [neg_div, Rat.num_div_den a]

theorem qSub_eq (a b : ℚ) : qSub a b = a - b := by
  rw [qSub, qAdd_eq, qNeg_eq, sub_eq_add_neg]

theorem qMul_eq (a b : ℚ) : qMul a b = a * b := by
  have ha : (a.den : ℚ) ≠ 0 := Nat.cast_ne_zero.mpr a.den_nz
  have hb : (b.den : ℚ) ≠ 0 := Nat.cast_ne_zero.mpr b.den_nz
  unfold qMul
  rw [Rat.divInt_eq_div]
  push_cast
  rw [div_eq_iff (mul_ne_zero ha hb)]
  linear_combination (-(b.num : ℚ)) * mulDenNum a + (-(a * (a.den : ℚ))) * mulDenNum b

theorem qDiv_eq (a b : ℚ) : qDiv a b = a / b := by
  rcases eq_or_ne b 0 with hb | hb
  · subst hb; unfold qDiv; simp
  · have ha : (a.den : ℚ) ≠ 0 := Nat.cast_ne_zero.mpr a.den_nz
    have hbn : (b.num : ℚ) ≠ 0 := Int.cast_ne_zero.mpr (Rat.num_ne_zero.mpr hb)
    unfold qDiv
    rw [Rat.divInt_eq_div]
    push_cast
    rw [div_eq_iff (mul_ne_zero ha hbn), div_mul_eq_mul_div, eq_div_iff hb]
    linear_combination (-(b.den : ℚ) * b) * mulDenNum a + (a * (a.den : ℚ)) * mulDenNum b

/-! ## C8: the cell formatters -/

/-- C8: currency formatting renders a numeric value with the
requested decimal places (default 2) and grouping, then swaps the
separators to the ES/AR convention and prefixes `"$ "`, so
`formatCurrency(1234567.8) = "$ 1.234.567,80"`; percent formatting
multiplies by 100 and appends `" %"`, so
`formatPercent(0.1) = "10,00 %"`; every non-numeric input falls back
to its string form in both formatters. -/
theorem c8_formatters :
    fmtCurrency (PyVal.num (1234567.8 : ℚ)) = "$ 1.234.567,80" ∧
    fmtPercent (PyVal.num (0.1 : ℚ)) = "10,00 %" ∧
    (∀ v, fmtCurrency v = fmtCurrencyD v 2 ∧ fmtPercent v = fmtPercentD v 2) ∧
    (∀ q d, fmtCurrencyD (PyVal.num q) d = "$ " ++ String.mk (swapSeps (pyFmtFloat q d))) ∧
    (∀ q d, fmtPercentD (PyVal.num q) d =
      String.mk (swapSeps (pyFmtFloat (qMul q (intQ 100)) d)) ++ " %") ∧
    (∀ s d, fmtCurrencyD (PyVal.text s) d = s ∧ fmtPercentD (PyVal.text s) d = s) := by
  refine ⟨?_, ?_, fun v => ⟨rfl, rfl⟩, fun q d => rfl, fun q d => rfl, fun s d => ⟨rfl, rfl⟩⟩
  · have h : (1234567.8 : ℚ) = Rat.divInt 12345678 10 := by
      rw [Rat.divInt_eq_div]; norm_num
    rw [h]; decide
  · have h : (0.1 : ℚ) = Rat.divInt 1 10 := by
      rw [Rat.divInt_eq_div]; norm_num
    rw [h]; decide

/-! ## C9: the reload sequence -/

/-- C9 counterexample: the reload sequence is not atomic.  Starting
from a consistent state over `oldRecsRel`, the observable state
after the `DF = df` write holds the new record set together with the
caches still built from the old one (and those caches differ). -/
theorem c9_reload_not_atomic_cex :
    (reloadStates ⟨oldRecsRel, buildCaches oldRecsRel, "t0"⟩ newRecsRel "t1").get? 1 =
      some ⟨newRecsRel, buildCaches oldRecsRel, "t0"⟩ ∧
    buildCaches oldRecsRel ≠ buildCaches newRecsRel := by decide

/-- C9 (amended): the reload sequence writes the record set first
and the aggregates afterwards, so a concurrent reader can observe
the new record set together with aggregates built from the old one
(an inconsistent state); once the reload completes, the published
state is consistent again. -/
theorem c9_reload_staged (st : SrvState) (newRecs : List Record) (ts : String)
    (hcons : consistent st) (hdiff : buildCaches st.df ≠ buildCaches newRecs) :
    ∃ mid ∈ reloadStates st newRecs ts,
      mid.df = newRecs ∧ mid.caches = buildCaches st.df ∧ ¬consistent mid ∧
      consistent (reloadFinal st newRecs ts) ∧
      reloadFinal st newRecs ts ∈ reloadStates st newRecs ts := by
  refine ⟨{ st with df := newRecs }, ?_, rfl, ?_, ?_, rfl, ?_⟩
  · exact List.mem_cons_of_mem _ (List.mem_cons_self _ _)
  · exact hcons ▸ rfl
  · intro hmid
    exact hdiff (hcons.symm.trans hmid)
  · show reloadFinal st newRecs ts ∈ reloadStates st newRecs ts
    unfold reloadFinal reloadStates
    simp

/-- C9 witness: the staged-reload theorem at the concrete records. -/
theorem c9_reload_staged_witness :
    ∃ mid ∈ reloadStates ⟨oldRecsRel, buildCaches oldRecsRel, "t0"⟩ newRecsRel "t1",
      mid.df = newRecsRel ∧
      mid.caches = buildCaches (SrvState.df ⟨oldRecsRel, buildCaches oldRecsRel, "t0"⟩) ∧
      ¬consistent mid ∧
      consistent (reloadFinal ⟨oldRecsRel, buildCaches oldRecsRel, "t0"⟩ newRecsRel "t1") ∧
      reloadFinal ⟨oldRecsRel, buildCaches oldRecsRel, "t0"⟩ newRecsRel "t1" ∈
        reloadStates ⟨oldRecsRel, buildCaches oldRecsRel, "t0"⟩ newRecsRel "t1" :=
  c9_reload_staged _ _ _ rfl (by decide)

/-! ## C2: unparseable period labels in the comparison -/

/-- C2 counterexample: an unparseable period label is not excluded
from the month-over-month comparison — the NaN key sorts last, so
`_mom_simple` selects the unparseable row `"garbage"` as the current
period (and the parseable `"Jul-2025"` as the previous one). -/
theorem c2_unparseable_selected_cex :
    momSimple [("Jul-2025", 100), ("garbage", 50)] =
      some ⟨"garbage", 50, "Jul-2025", 100, -50, Rat.divInt (-1) 2⟩ ∧
    periodoKey "garbage" = none ∧ periodoKey "Jul-2025" = some 202507 := by decide

/-! ## Order lemmas for the period-key sort -/

theorem pkLe_refl (x : Option Nat) : pkLe x x = true := by
  cases x <;> simp [pkLe]

theorem pkLe_total (x y : Option Nat) : pkLe x y = true ∨ pkLe y x = true := by
  cases x <;> cases y <;> simp [pkLe] <;> omega

theorem pkLe_trans {x y z : Option Nat} (h1 : pkLe x y = true) (h2 : pkLe y z = true) :
    pkLe x z = true := by
  cases x <;> cases y <;> cases z <;> simp_all [pkLe] <;> omega

theorem pkLe_none_left {y : Option Nat} (h : pkLe none y = true) : y = none := by
  cases y <;> simp_all [pkLe]

theorem sortByPK_sorted (rows : List (String × ℚ)) :
    List.Sorted (fun a b => pkLe (periodoKey a.1) (periodoKey b.1) = true) (sortByPK rows) := by
  haveI : IsTotal (String × ℚ) (fun a b => pkLe (periodoKey a.1) (periodoKey b.1) = true) :=
    ⟨fun a b => pkLe_total _ _⟩
  haveI : IsTrans (String × ℚ) (fun a b => pkLe (periodoKey a.1) (periodoKey b.1) = true) :=
    ⟨fun _ _ _ => pkLe_trans⟩
  exact List.sorted_insertionSort _ rows

theorem sortByPK_length (rows : List (String × ℚ)) : (sortByPK rows).length = rows.length :=
  List.length_insertionSort _ rows

theorem mem_sortByPK {rows : List (String × ℚ)} {x : String × ℚ} :
    x ∈ sortByPK rows ↔ x ∈ rows :=
  List.mem_insertionSort _

theorem sortByPK_perm (rows : List (String × ℚ)) : List.Perm (sortByPK rows) rows :=
  List.perm_insertionSort _ rows

theorem sortByPK_keysNodup (rows : List (String × ℚ))
    (hnd : (rows.map (fun r => periodoKey r.1)).Nodup) :
    ((sortByPK rows).map (fun r => periodoKey r.1)).Nodup := by
  have hp : List.Perm ((sortByPK rows).map (fun r => periodoKey r.1))
      (rows.map (fun r => periodoKey r.1)) := (sortByPK_perm rows).map _
  exact (List.Perm.nodup_iff hp).mpr hnd

/-! ## C2: amended statement -/

/-- C2 (amended): rows whose period label fails to parse are not
excluded from the comparison logic; the sort places their NaN keys
after every parseable key.  Concretely: the sorted frame is ordered
by `pkLe` with NaN greatest, every row after an unparseable row is
itself unparseable, and whenever a dataset of at least two rows
contains an unparseable label, `_mom_simple` selects a row with an
unparseable label as the current period.  (In the top-clients
branch, by contrast, the latest key is computed with `max`/`skipna`,
which does skip NaN keys.) -/
theorem c2_unparseable_sorts_last (rows : List (String × ℚ)) :
    List.Sorted (fun a b => pkLe (periodoKey a.1) (periodoKey b.1) = true) (sortByPK rows) ∧
    (∀ l1 x l2 y, sortByPK rows = l1 ++ x :: l2 → y ∈ l2 →
      periodoKey x.1 = none → periodoKey y.1 = none) ∧
    (2 ≤ rows.length → (∃ r ∈ rows, periodoKey r.1 = none) →
      ∃ m, momSimple rows = some m ∧ periodoKey m.periodoActual = none) := by
  refine ⟨sortByPK_sorted rows, ?_, ?_⟩
  · intro l1 x l2 y hsplit hy hx
    have hs := sortByPK_sorted rows
    rw [hsplit] at hs
    have hpair := (List.pairwise_append.mp hs).2.1
    have hr : pkLe (periodoKey x.1) (periodoKey y.1) = true :=
      (List.pairwise_cons.mp hpair).1 y hy
    rw [hx] at hr
    exact pkLe_none_left hr
  · intro hlen ⟨u, hu, hku⟩
    have hdlen : (sortByPK rows).length = rows.length := sortByPK_length rows
    have h2 : 2 ≤ (sortByPK rows).reverse.length := by
      rw [List.length_reverse, hdlen]; exact hlen
    rcases hrev : (sortByPK rows).reverse with _ | ⟨p, rest1⟩
    · rw [hrev] at h2; simp at h2
    rcases rest1 with _ | ⟨q, rest⟩
    · rw [hrev] at h2; simp at h2
    have hmom : momSimple rows = some ⟨p.1, p.2, q.1, q.2, qSub p.2 q.2,
        if q.2 ≠ 0 then qDiv (qSub p.2 q.2) q.2 else 0⟩ := by
      simp only [momSimple]
      rw [hrev, if_neg (by omega)]
    refine ⟨_, hmom, ?_⟩
    -- the last row of the sorted frame has an unparseable label
    have hd : sortByPK rows = (rest.reverse ++ [q]) ++ [p] := by
      have := congrArg List.reverse hrev
      simpa [List.reverse_append] using this
    have hu' : u ∈ sortByPK rows := mem_sortByPK.mpr hu
    rw [hd] at hu'
    rcases List.mem_append.mp hu' with hmem | hlast
    · have hs := sortByPK_sorted rows
      rw [hd] at hs
      have hpair := (List.pairwise_append.mp hs).2.2
      have hr : pkLe (periodoKey u.1) (periodoKey p.1) = true :=
        hpair u hmem p (List.mem_singleton_self p)
      rw [hku] at hr
      exact pkLe_none_left hr
    · rw [List.mem_singleton.mp hlast] at hku
      exact hku

/-- C2 witness: the amended statement applied at a concrete mixed
dataset, exhibiting the unparseable current period. -/
theorem c2_unparseable_sorts_last_witness :
    ∃ m, momSimple [("Jul-2025", 100), ("garbage", 50)] = some m ∧
      periodoKey m.periodoActual = none :=
  (c2_unparseable_sorts_last [("Jul-2025", 100), ("garbage", 50)]).2.2 (by decide)
    ⟨("garbage", 50), by decide, by decide⟩

/-! ## C7: the comparison engine -/

set_option maxHeartbeats 800000 in
/-- C7: `_mom_simple` returns none on fewer than two rows; otherwise
it takes the last row of the period-key sort as current and the one
before it as previous — with all keys distinct, these are the
chronologically last two rows (current has the maximal key, previous
the maximal key among the rest) — with absolute variation
current − previous and relative variation
(current − previous)/previous, defined as exactly 0 when the
previous total is 0. -/
theorem c7_mom_simple (rows : List (String × ℚ)) :
    (rows.length < 2 → momSimple rows = none) ∧
    (∀ p q rest, (sortByPK rows).reverse = p :: q :: rest →
      momSimple rows = some ⟨p.1, p.2, q.1, q.2, qSub p.2 q.2,
        if q.2 ≠ 0 then qDiv (qSub p.2 q.2) q.2 else 0⟩) ∧
    (2 ≤ rows.length → (rows.map (fun r => periodoKey r.1)).Nodup →
      ∃ m cur prev, momSimple rows = some m ∧
        m.periodoActual = cur.1 ∧ m.totalActual = cur.2 ∧
        m.periodoAnterior = prev.1 ∧ m.totalAnterior = prev.2 ∧
        m.varAbs = cur.2 - prev.2 ∧
        (prev.2 = 0 → m.varPct = 0) ∧
        (prev.2 ≠ 0 → m.varPct = (cur.2 - prev.2) / prev.2) ∧
        cur ∈ rows ∧ prev ∈ rows ∧ cur ≠ prev ∧
        (∀ r ∈ rows, pkLe (periodoKey r.1) (periodoKey cur.1) = true) ∧
        (∀ r ∈ rows, r ≠ cur → pkLe (periodoKey r.1) (periodoKey prev.1) = true)) := by
  refine ⟨?_, ?_, ?_⟩
  · intro hlen
    simp only [momSimple]
    rw [if_pos (by rw [sortByPK_length]; exact hlen)]
  · intro p q rest hrev
    have hlen2 : 2 ≤ rows.length := by
      have := congrArg List.length hrev
      simp only [List.length_reverse, sortByPK_length, List.length_cons] at this
      omega
    simp only [momSimple]
    rw [hrev, if_neg (by rw [sortByPK_length]; omega)]
  · intro hlen hnd
    have h2 : 2 ≤ (sortByPK rows).reverse.length := by
      rw [List.length_reverse, sortByPK_length]; exact hlen
    rcases hrev : (sortByPK rows).reverse with _ | ⟨p, rest1⟩
    · rw [hrev] at h2; simp at h2
    rcases rest1 with _ | ⟨q, rest⟩
    · rw [hrev] at h2; simp at h2
    have hmom : momSimple rows = some ⟨p.1, p.2, q.1, q.2, qSub p.2 q.2,
        if q.2 ≠ 0 then qDiv (qSub p.2 q.2) q.2 else 0⟩ := by
      simp only [momSimple]
      rw [hrev, if_neg (by rw [sortByPK_length]; omega)]
    have hd : sortByPK rows = (rest.reverse ++ [q]) ++ [p] := by
      have := congrArg List.reverse hrev
      simpa [List.reverse_append] using this
    have hs := sortByPK_sorted rows
    rw [hd] at hs
    have hsplit := List.pairwise_append.mp hs
    have hsplit2 := List.pairwise_append.mp hsplit.1
    have hmemd : ∀ x, x ∈ rows ↔ x ∈ (rest.reverse ++ [q]) ++ [p] := by
      intro x
      rw [← hd, mem_sortByPK]
    have hpq : p ≠ q := by
      have hndd0 : ((sortByPK rows).map (fun r => periodoKey r.1)).Nodup :=
        sortByPK_keysNodup rows hnd
      rw [hd] at hndd0
      have hndd : ((((rest.reverse ++ [q]) ++ [p]).map (fun r => periodoKey r.1))).Nodup := hndd0
      rw [List.map_append] at hndd
      have hdisj := (List.nodup_append.mp hndd).2.2
      have hqmem : periodoKey q.1 ∈ (rest.reverse ++ [q]).map (fun r => periodoKey r.1) := by
        rw [List.map_append]; exact List.mem_append_right _ (by simp)
      have hnp : periodoKey q.1 ∉ [p].map (fun r => periodoKey r.1) := hdisj hqmem
      intro heq
      exact hnp (by rw [heq]; simp)
    refine ⟨_, p, q, hmom, rfl, rfl, rfl, rfl, qSub_eq _ _, ?_, ?_, ?_, ?_, hpq, ?_, ?_⟩
    · intro h0
      show (if q.2 ≠ 0 then qDiv (qSub p.2 q.2) q.2 else 0) = 0
      rw [if_neg (by simp [h0])]
    · intro h0
      show (if q.2 ≠ 0 then qDiv (qSub p.2 q.2) q.2 else 0) = (p.2 - q.2) / q.2
      rw [if_pos h0, qDiv_eq, qSub_eq]
    · exact (hmemd p).mpr (List.mem_append_right _ (by simp))
    · exact (hmemd q).mpr (List.mem_append_left _ (List.mem_append_right _ (by simp)))
    · intro r hr
      rcases List.mem_append.mp ((hmemd r).mp hr) with hrA | hrP
      · exact hsplit.2.2 r hrA p (by simp)
      · rw [List.mem_singleton.mp hrP]
        exact pkLe_refl _
    · intro r hr hrp
      rcases List.mem_append.mp ((hmemd r).mp hr) with hrA | hrP
      · rcases List.mem_append.mp hrA with hrR | hrQ
        · exact hsplit2.2.2 r hrR q (by simp)
        · rw [List.mem_singleton.mp hrQ]
          exact pkLe_refl _
      · exact absurd (List.mem_singleton.mp hrP) hrp

/-- C7 witness: the comparison-engine theorem at concrete inputs — a
one-row frame yields none, and on a concrete two-row frame the
current/previous rows are characterized. -/
theorem c7_mom_simple_witness :
    momSimple [("Jul-2025", (100 : ℚ))] = none ∧
    (∃ m cur prev, momSimple [("Jun-2025", (80 : ℚ)), ("Jul-2025", 100)] = some m ∧
      m.periodoActual = cur.1 ∧ m.totalActual = cur.2 ∧
      m.periodoAnterior = prev.1 ∧ m.totalAnterior = prev.2 ∧
      m.varAbs = cur.2 - prev.2 ∧
      (prev.2 = 0 → m.varPct = 0) ∧
      (prev.2 ≠ 0 → m.varPct = (cur.2 - prev.2) / prev.2) ∧
      cur ∈ [("Jun-2025", (80 : ℚ)), ("Jul-2025", 100)] ∧
      prev ∈ [("Jun-2025", (80 : ℚ)), ("Jul-2025", 100)] ∧ cur ≠ prev ∧
      (∀ r ∈ [("Jun-2025", (80 : ℚ)), ("Jul-2025", 100)],
        pkLe (periodoKey r.1) (periodoKey cur.1) = true) ∧
      (∀ r ∈ [("Jun-2025", (80 : ℚ)), ("Jul-2025", 100)], r ≠ cur →
        pkLe (periodoKey r.1) (periodoKey prev.1) = true)) :=
  ⟨(c7_mom_simple [("Jul-2025", 100)]).1 (by decide),
   (c7_mom_simple [("Jun-2025", 80), ("Jul-2025", 100)]).2.2 (by decide) (by decide)⟩

/-! ## C1: the specific-client dispatch -/

/-- C1 counterexample: for the prompt `"cliente ACME variacion"` the
greedy capture class of the client-name pattern swallows the trailing
keyword, so the extracted name is `"ACME variacion"`, no client
matches it, and the dispatcher returns a not-found message — not the
single-row variation table for `"ACME"` — even though the dataset
holds a client `"ACME S.A."` with two parseable periods. -/
theorem c1_cliente_acme_variacion_cex :
    extractName "cliente ACME variacion" = some "ACME variacion" ∧
    ask demoSt "cliente ACME variacion" =
      .ok (.msg "No se encontró el cliente: ACME variacion") ∧
    containsCI "ACME S.A." "ACME" = true ∧
    ("ACME variacion" : String) ≠ "ACME" := by
  refine ⟨by decide, by decide, by decide, by decide⟩

/-- C1 (amended): the `cliente <name>` capture is greedy over word
characters, whitespace, `-` and `#`, so any trailing words (such as
`variacion`) become part of the extracted name; for a query whose
normalized text contains `cliente` and `variac`, reaches the client
branch (no earlier keyword fires), and whose extracted name matches
at least one client, the dispatcher returns the single-row table of
that client's month-over-month comparison, with Var_Abs and Var_%
taken from `_mom_simple` over the client's per-period totals.  (In
`"cliente ACME variacion"` the name is `"ACME variacion"`; placing
the keyword first, as in `"variacion cliente ACME"`, extracts
`"ACME"`.) -/
theorem c1_cliente_variation_amended (st : SrvState) (prompt name : String) (mom : MomRow)
    (hb1 : strContains (pyNormStr prompt) "top" = false)
    (hb3 : (strContains (pyNormStr prompt) "por mes" ||
            strContains (pyNormStr prompt) "total por mes" ||
            strContains (pyNormStr prompt) "mensual") = false)
    (hb4 : (strContains (pyNormStr prompt) "emisora" ||
            strContains (pyNormStr prompt) "canal") = false)
    (hb5 : (strContains (pyNormStr prompt) "servicio" ||
            strContains (pyNormStr prompt) "tipo") = false)
    (hcl : strContains (pyNormStr prompt) "cliente" = true)
    (hvar : strContains (pyNormStr prompt) "variac" = true)
    (hname : extractName prompt = some name)
    (hfilt : (st.df.filter (fun r => containsCI r.cliente name)).isEmpty = false)
    (hmom : momSimple (groupSum (fun r => r.periodo) (fun r => r.total)
        (st.df.filter (fun r => containsCI r.cliente name))) = some mom) :
    ask st prompt = .ok (.table
      ⟨"Variación mensual — " ++ name,
       ["Cliente", "Periodo_Actual", "Total_Actual", "Periodo_Anterior", "Total_Anterior",
        "Var_Abs", "Var_%"],
       [[name, mom.periodoActual, fmtC mom.totalActual, mom.periodoAnterior,
         fmtC mom.totalAnterior, fmtC mom.varAbs, fmtP mom.varPct]]⟩) := by
  simp only [ask, hb1, hb3, hb4, hb5, hcl, hvar, Bool.false_and, Bool.true_or,
    Bool.false_eq_true, if_false, hname]
  simp only [clienteBranch, hfilt, hvar, Bool.true_or, Bool.false_eq_true, if_false, hmom,
    if_true]

/-- C1 witness: the amended claim at the prompt
`"variacion cliente ACME"` over the demo dataset. -/
theorem c1_cliente_variation_amended_witness :
    ask demoSt "variacion cliente ACME" = .ok (.table
      ⟨"Variación mensual — " ++ "ACME",
       ["Cliente", "Periodo_Actual", "Total_Actual", "Periodo_Anterior", "Total_Anterior",
        "Var_Abs", "Var_%"],
       [["ACME", "Jul-2025", fmtC 100, "Jun-2025",
         fmtC 80, fmtC 20, fmtP (Rat.divInt 1 4)]]⟩) :=
  by
  refine c1_cliente_variation_amended demoSt "variacion cliente ACME" "ACME"
    ⟨"Jul-2025", 100, "Jun-2025", 80, 20, Rat.divInt 1 4⟩
    ?_ ?_ ?_ ?_ ?_ ?_ ?_ ?_ ?_ <;> decide

/-! ## Helper lemmas for the top-clients branch -/

theorem addTo_ne_nil [DecidableEq κ] (k : κ) (v : ℚ) (l : List (κ × ℚ)) : addTo k v l ≠ [] := by
  cases l with
  | nil => simp [addTo]
  | cons a r =>
    obtain ⟨k', v'⟩ := a
    simp only [addTo]
    split <;> simp

theorem foldl_addTo_ne_nil [DecidableEq κ] (key : α → κ) (val : α → ℚ) :
    ∀ (xs : List α) (acc : List (κ × ℚ)), acc ≠ [] →
      xs.foldl (fun a x => addTo (key x) (val x) a) acc ≠ [] := by
  intro xs
  induction xs with
  | nil => intro acc h; simpa using h
  | cons x xs ih =>
    intro acc _
    exact ih _ (addTo_ne_nil _ _ _)

theorem accumGroups_ne_nil [DecidableEq κ] (key : α → κ) (val : α → ℚ)
    {xs : List α} (h : xs ≠ []) : accumGroups key val xs ≠ [] := by
  cases xs with
  | nil => exact absurd rfl h
  | cons x xs =>
    show (x :: xs).foldl (fun a y => addTo (key y) (val y) a) [] ≠ []
    rw [List.foldl_cons]
    exact foldl_addTo_ne_nil key val xs _ (addTo_ne_nil _ _ _)

theorem addTo_keys [DecidableEq κ] {k' k : κ} {v : ℚ} {l : List (κ × ℚ)}
    (h : k' ∈ (addTo k v l).map Prod.fst) : k' ∈ l.map Prod.fst ∨ k' = k := by
  induction l with
  | nil => simpa [addTo] using h
  | cons a r ih =>
    obtain ⟨k0, v0⟩ := a
    simp only [addTo] at h
    by_cases he : k0 = k
    · rw [if_pos he] at h
      simp only [List.map_cons, List.mem_cons] at h
      rcases h with h | h
      · exact Or.inl (by simp [h])
      · exact Or.inl (by simp [h])
    · rw [if_neg he] at h
      simp only [List.map_cons, List.mem_cons] at h
      rcases h with h | h
      · exact Or.inl (by simp [h])
      · rcases ih h with h2 | h2
        · exact Or.inl (by simp [h2, List.mem_cons])
        · exact Or.inr h2

theorem accum_keys [DecidableEq κ] (key : α → κ) (val : α → ℚ) :
    ∀ (xs : List α) (acc : List (κ × ℚ)) (k : κ),
      k ∈ (xs.foldl (fun a x => addTo (key x) (val x) a) acc).map Prod.fst →
      k ∈ acc.map Prod.fst ∨ ∃ x ∈ xs, key x = k := by
  intro xs
  induction xs with
  | nil => intro acc k h; exact Or.inl h
  | cons x xs ih =>
    intro acc k h
    rw [List.foldl_cons] at h
    rcases ih _ k h with h2 | h2
    · rcases addTo_keys h2 with h3 | h3
      · exact Or.inl h3
      · exact Or.inr ⟨x, by simp, h3.symm⟩
    · obtain ⟨y, hy, hk⟩ := h2
      exact Or.inr ⟨y, by simp [hy], hk⟩

theorem accumGroups_keys [DecidableEq κ] {key : α → κ} {val : α → ℚ} {xs : List α} {k : κ}
    (h : k ∈ (accumGroups key val xs).map Prod.fst) : ∃ x ∈ xs, key x = k := by
  rcases accum_keys key val xs [] k h with h2 | h2
  · simp at h2
  · exact h2

theorem maxKeySkipNa_all_none :
    ∀ (ks : List (Option Nat)), (∀ k ∈ ks, k = none) → maxKeySkipNa ks = none := by
  have aux : ∀ (ks : List (Option Nat)), (∀ k ∈ ks, k = none) →
      ks.foldl (fun acc k =>
        match acc, k with
        | none, x => x
        | some a, none => some a
        | some a, some b => some (max a b)) none = none := by
    intro ks
    induction ks with
    | nil => intro _; rfl
    | cons k ks ih =>
      intro h
      rw [List.foldl_cons, h k (by simp)]
      exact ih (fun k' hk' => h k' (by simp [hk']))
  intro ks h
  exact aux ks h

theorem dedup_all_none {ks : List (Option Nat)} (h : ∀ k ∈ ks, k = none) (hne : ks ≠ []) :
    ks.dedup = [none] := by
  induction ks with
  | nil => exact absurd rfl hne
  | cons k ks ih =>
    have hk : k = none := h k (by simp)
    subst hk
    cases ks with
    | nil => simp
    | cons k2 ks2 =>
      have hrec : (k2 :: ks2).dedup = [none] :=
        ih (fun k' hk' => h k' (by simp [List.mem_cons] at hk' ⊢; tauto)) (by simp)
      rw [List.dedup_cons_of_mem (by have h2 := h k2 (by simp); simp [h2])]
      exact hrec

theorem uniqSorted_all_none {ks : List (Option Nat)} (h : ∀ k ∈ ks, k = none) (hne : ks ≠ []) :
    uniqSorted ks = [none] := by
  unfold uniqSorted
  rw [dedup_all_none h hne]
  simp [List.insertionSort]

theorem isEmpty_false_of_ne_nil {l : List α} (h : l ≠ []) : l.isEmpty = false := by
  cases l with
  | nil => exact absurd rfl h
  | cons a r => rfl

theorem insertionSort_ne_nil {r : α → α → Prop} [DecidableRel r] {l : List α} (h : l ≠ []) :
    List.insertionSort r l ≠ [] := by
  intro h0
  apply h
  have hl := List.length_insertionSort r l
  rw [h0] at hl
  simp only [List.length_nil] at hl
  exact List.length_eq_zero.mp hl.symm

/-! ## C3: the top-clients branch on an all-unparseable dataset -/

/-- C3 (code bug): on a non-empty dataset in which no period label
parses, the top-N-clients-in-latest-period branch does not return an
explanatory message — `max`/`skipna` yields NaN, the equality filter
drops every row, and `merged[COL_PERIODO].iloc[0]` raises an
`IndexError`.  The `tdf.empty` guard does not cover this case. -/
theorem c3_topUltimo_all_unparseable (df : List Record) (n : Nat)
    (hne : df ≠ []) (hall : ∀ r ∈ df, periodoKey r.periodo = none) :
    topUltimo df n = .error "IndexError: single positional indexer is out-of-bounds" := by
  have hacc : accumGroups (fun r : Record => (r.cliente, r.periodo)) (fun r => r.total) df ≠ [] :=
    accumGroups_ne_nil _ _ hne
  simp only [topUltimo]
  set T := List.insertionSort
    (fun a b : (String × String) × ℚ => pkLe (periodoKey a.1.2) (periodoKey b.1.2) = true)
    (groupSumBy pairLe (fun r : Record => (r.cliente, r.periodo)) (fun r => r.total) df)
    with hT
  have hTne : T ≠ [] := by
    rw [hT]
    refine insertionSort_ne_nil ?_
    show groupSumBy pairLe _ _ df ≠ []
    unfold groupSumBy
    exact insertionSort_ne_nil hacc
  have hTkeys : ∀ r ∈ T, periodoKey r.1.2 = none := by
    intro r hr
    rw [hT, List.mem_insertionSort] at hr
    have hr2 : r ∈ accumGroups (fun r : Record => (r.cliente, r.periodo)) (fun r => r.total) df := by
      unfold groupSumBy at hr
      rwa [List.mem_insertionSort] at hr
    have hk : r.1 ∈ (accumGroups (fun r : Record => (r.cliente, r.periodo))
        (fun r => r.total) df).map Prod.fst := List.mem_map_of_mem _ hr2
    obtain ⟨x, hx, hkey⟩ := accumGroups_keys hk
    have hper : r.1.2 = x.periodo := by rw [← hkey]
    rw [hper]
    exact hall x hx
  have hkn : ∀ k ∈ T.map (fun r => periodoKey r.1.2), k = none := by
    intro k hk
    obtain ⟨r, hr, he⟩ := List.mem_map.mp hk
    rw [← he]
    exact hTkeys r hr
  rw [isEmpty_false_of_ne_nil hTne, maxKeySkipNa_all_none _ hkn,
    uniqSorted_all_none hkn (by
      intro h0
      exact hTne (List.map_eq_nil_iff.mp h0))]
  have hfilt : T.filter (fun r => optEq (periodoKey r.1.2) none) = [] :=
    List.filter_eq_nil_iff.mpr (fun r hr => by rw [hTkeys r hr]; simp [optEq])
  rw [hfilt]
  simp [List.insertionSort, ilocHead, Bind.bind, Except.bind]

/-- C3 witness: the IndexError at the concrete failing input — two
records whose period labels are `"garbage"` and `"junk"`. -/
theorem c3_topUltimo_all_unparseable_witness :
    topUltimo badPeriodRecs 5 =
      .error "IndexError: single positional indexer is out-of-bounds" :=
  c3_topUltimo_all_unparseable badPeriodRecs 5 (by decide) (by decide)

/-! ## Group-sum lemmas -/

theorem findV_nil [DecidableEq κ] (k : κ) : findV k ([] : List (κ × ℚ)) = 0 := rfl

theorem findV_addTo [DecidableEq κ] (k k' : κ) (v : ℚ) (l : List (κ × ℚ)) :
    findV k (addTo k' v l) = if k' = k then findV k l + v else findV k l := by
  induction l with
  | nil =>
    by_cases h : k' = k <;>
      simp [findV, addTo, List.find?, h, qAdd_eq]
  | cons a r ih =>
    obtain ⟨k0, v0⟩ := a
    by_cases h0 : k0 = k'
    · subst h0
      by_cases hk : k0 = k
      · subst hk
        simp [findV, addTo, List.find?, qAdd_eq]
      · have hk2 : (decide (k0 = k)) = false := by simp [hk]
        simp only [findV, addTo, if_pos rfl, List.find?, hk2, if_neg hk]
    · rw [show addTo k' v ((k0, v0) :: r) = (k0, v0) :: addTo k' v r by
        simp [addTo, h0]]
      by_cases hk : k0 = k
      · subst hk
        have hk' : k' ≠ k0 := fun h => h0 h.symm
        simp [findV, List.find?, if_neg hk']
      · simp only [findV, List.find?] at ih ⊢
        have hd : (decide (k0 = k)) = false := by simp [hk]
        rw [hd]
        exact ih

theorem findV_foldl [DecidableEq κ] (key : α → κ) (val : α → ℚ) :
    ∀ (xs : List α) (acc : List (κ × ℚ)) (k : κ),
      findV k (xs.foldl (fun a x => addTo (key x) (val x) a) acc) =
        findV k acc + ((xs.filter (fun x => key x = k)).map val).sum := by
  intro xs
  induction xs with
  | nil => intro acc k; simp
  | cons x xs ih =>
    intro acc k
    rw [List.foldl_cons, ih, findV_addTo]
    by_cases h : key x = k
    · rw [if_pos h, List.filter_cons_of_pos (by simp [h]), List.map_cons, List.sum_cons]
      ring
    · rw [if_neg h, List.filter_cons_of_neg (by simp [h])]

theorem findV_accumGroups [DecidableEq κ] (key : α → κ) (val : α → ℚ) (xs : List α) (k : κ) :
    findV k (accumGroups key val xs) = ((xs.filter (fun x => key x = k)).map val).sum := by
  rw [accumGroups, findV_foldl, findV_nil, zero_add]

theorem addTo_keys_map [DecidableEq κ] (k : κ) (v : ℚ) (l : List (κ × ℚ)) :
    (addTo k v l).map Prod.fst =
      if k ∈ l.map Prod.fst then l.map Prod.fst else l.map Prod.fst ++ [k] := by
  induction l with
  | nil => simp [addTo]
  | cons a r ih =>
    obtain ⟨k0, v0⟩ := a
    by_cases h : k0 = k
    · subst h
      simp [addTo]
    · have hne : k ≠ k0 := fun he => h he.symm
      simp only [addTo, if_neg h, List.map_cons, ih, List.mem_cons]
      by_cases hm : k ∈ r.map Prod.fst
      · simp [hm, hne]
      · simp [hm, hne]

theorem addTo_keys_nodup [DecidableEq κ] (k : κ) (v : ℚ) {l : List (κ × ℚ)}
    (h : (l.map Prod.fst).Nodup) : ((addTo k v l).map Prod.fst).Nodup := by
  rw [addTo_keys_map]
  by_cases hm : k ∈ l.map Prod.fst
  · rwa [if_pos hm]
  · rw [if_neg hm]
    refine List.Nodup.append h (List.nodup_singleton k) ?_
    intro a ha hb
    rw [List.mem_singleton.mp hb] at ha
    exact hm ha

theorem foldl_keys_nodup [DecidableEq κ] (key : α → κ) (val : α → ℚ) :
    ∀ (xs : List α) (acc : List (κ × ℚ)), (acc.map Prod.fst).Nodup →
      ((xs.foldl (fun a x => addTo (key x) (val x) a) acc).map Prod.fst).Nodup := by
  intro xs
  induction xs with
  | nil => intro acc h; exact h
  | cons x xs ih =>
    intro acc h
    rw [List.foldl_cons]
    exact ih _ (addTo_keys_nodup _ _ h)

theorem accumGroups_keys_nodup [DecidableEq κ] (key : α → κ) (val : α → ℚ) (xs : List α) :
    ((accumGroups key val xs).map Prod.fst).Nodup :=
  foldl_keys_nodup key val xs [] (by simp)

theorem find?_of_mem_keys_nodup [DecidableEq κ] {l : List (κ × ℚ)}
    (hnd : (l.map Prod.fst).Nodup) {k : κ} {v : ℚ} (hm : (k, v) ∈ l) :
    l.find? (fun p => p.1 = k) = some (k, v) := by
  induction l with
  | nil => simp at hm
  | cons a r ih =>
    obtain ⟨k0, v0⟩ := a
    rcases List.mem_cons.mp hm with he | hr
    · rw [← he]
      simp [List.find?]
    · have hk0 : k0 ≠ k := by
        intro he0
        subst he0
        have : k0 ∈ r.map Prod.fst :=
          List.mem_map.mpr ⟨(k0, v), hr, rfl⟩
        exact (List.nodup_cons.mp (by simpa using hnd)).1 this
      simp only [List.find?, show (decide (k0 = k)) = false by simp [hk0]]
      exact ih (List.nodup_cons.mp (by simpa using hnd)).2 hr

theorem findV_of_mem [DecidableEq κ] {l : List (κ × ℚ)}
    (hnd : (l.map Prod.fst).Nodup) {k : κ} {v : ℚ} (hm : (k, v) ∈ l) : findV k l = v := by
  rw [findV, find?_of_mem_keys_nodup hnd hm]
  rfl

theorem groupSumBy_val [DecidableEq κ] {le : κ → κ → Bool} {key : α → κ} {val : α → ℚ}
    {xs : List α} {k : κ} {v : ℚ} (hm : (k, v) ∈ groupSumBy le key val xs) :
    v = ((xs.filter (fun x => key x = k)).map val).sum := by
  have hm2 : (k, v) ∈ accumGroups key val xs := (List.mem_insertionSort _).mp hm
  rw [← findV_of_mem (accumGroups_keys_nodup key val xs) hm2, findV_accumGroups]

theorem sumBy_eq_sum (f : α → ℚ) (xs : List α) : sumBy f xs = (xs.map f).sum := by
  have aux : ∀ (xs : List α) (a : ℚ),
      xs.foldl (fun acc x => qAdd acc (f x)) a = a + (xs.map f).sum := by
    intro xs
    induction xs with
    | nil => intro a; simp
    | cons x xs ih =>
      intro a
      rw [List.foldl_cons, ih, qAdd_eq]
      simp [add_assoc]
  rw [sumBy, aux, zero_add]

/-! ## C6: aggregate totals are sums of coerced cells -/

/-- C6: in every standing aggregate table built by `_build_caches`
over the loaded dataset, each total equals the sum of the coerced
numeric totals of the raw rows in its group, where a missing or
unparseable numeric cell contributes exactly `0` (the coercion is
total into `ℚ`, so no null or NaN can appear in a total). -/
theorem c6_cache_totals (raws : List RawRecord) :
    (∀ p v, (p, v) ∈ (buildCaches (raws.map loadRec)).gByPeriod →
      v = ((raws.filter (fun r => r.periodo = p)).map (fun r => toNumeric r.total)).sum) ∧
    (∀ e v, (e, v) ∈ (buildCaches (raws.map loadRec)).gByEmisora →
      v = ((raws.filter (fun r => r.emisora = e)).map (fun r => toNumeric r.total)).sum) ∧
    (∀ c v, (c, v) ∈ (buildCaches (raws.map loadRec)).topClients →
      v = ((raws.filter (fun r => r.cliente = c)).map (fun r => toNumeric r.total)).sum) ∧
    (buildCaches (raws.map loadRec)).gServices =
      [(colMovil, (raws.map (fun r => toNumeric r.movil)).sum),
       (colHogar, (raws.map (fun r => toNumeric r.hogar)).sum),
       (colServ, (raws.map (fun r => toNumeric r.serv)).sum),
       (colAjuste, (raws.map (fun r => toNumeric r.ajuste)).sum)] := by
  refine ⟨?_, ?_, ?_, ?_⟩
  · intro p v hm
    simp only [buildCaches] at hm
    have hm2 := (List.mem_insertionSort _).mp (mem_sortByPK.mp hm)
    have hm3 : (p, v) ∈ groupSumBy strLe (fun r : Record => r.periodo)
        (fun r : Record => r.total) (raws.map loadRec) :=
      (List.mem_insertionSort _).mpr hm2
    have hv := groupSumBy_val hm3
    rw [hv, List.filter_map, List.map_map]
    rfl
  · intro e v hm
    simp only [buildCaches, sortValsDesc] at hm
    have hm2 : (e, v) ∈ groupSumBy strLe (fun r : Record => r.emisora)
        (fun r : Record => r.total) (raws.map loadRec) :=
      (List.mem_insertionSort _).mp hm
    have hv := groupSumBy_val hm2
    rw [hv, List.filter_map, List.map_map]
    rfl
  · intro c v hm
    simp only [buildCaches, sortValsDesc] at hm
    have hm2 : (c, v) ∈ groupSumBy strLe (fun r : Record => r.cliente)
        (fun r : Record => r.total) (raws.map loadRec) :=
      (List.mem_insertionSort _).mp hm
    have hv := groupSumBy_val hm2
    rw [hv, List.filter_map, List.map_map]
    rfl
  · simp only [buildCaches, sumBy_eq_sum, List.map_map]
    rfl

/-- C6 witness: the aggregate-totals theorem at `demoRaws`, whose
NaN cells contribute 0 (Jul-2025 total 10 + 7, Norte total 10 + 0,
ACME total 10 + 0). -/
theorem c6_cache_totals_witness :
    (17 : ℚ) =
      ((demoRaws.filter (fun r => r.periodo = "Jul-2025")).map (fun r => toNumeric r.total)).sum ∧
    (10 : ℚ) =
      ((demoRaws.filter (fun r => r.emisora = "Norte")).map (fun r => toNumeric r.total)).sum ∧
    (10 : ℚ) =
      ((demoRaws.filter (fun r => r.cliente = "ACME S.A.")).map
        (fun r => toNumeric r.total)).sum :=
  ⟨(c6_cache_totals demoRaws).1 "Jul-2025" 17 (by decide),
   (c6_cache_totals demoRaws).2.1 "Norte" 10 (by decide),
   (c6_cache_totals demoRaws).2.2.1 "ACME S.A." 10 (by decide)⟩

/-! ## Normalizer lemmas: whitespace collapsing -/

theorem collapseWs_cons_of_not_ws {c : Char} (h : isWsP c = false) (r : List Char) :
    collapseWs (c :: r) = c :: collapseWs r := by
  cases r with
  | nil => simp [collapseWs, h]
  | cons d r' => simp [collapseWs, h]

theorem collapseWs_mem : ∀ {l : List Char} {c : Char}, c ∈ collapseWs l →
    c = ' ' ∨ (c ∈ l ∧ isWsP c = false) := by
  intro l
  induction l with
  | nil => intro c h; simp [collapseWs] at h
  | cons a tail ih =>
    intro c h
    cases tail with
    | nil =>
      by_cases ha : isWsP a
      · simp [collapseWs, ha] at h
        exact Or.inl h
      · simp [collapseWs, ha] at h
        exact Or.inr ⟨by simp [h], by rw [h]; simpa using ha⟩
    | cons d r =>
      by_cases hb : isWsP a && isWsP d
      · rw [show collapseWs (a :: d :: r) = collapseWs (d :: r) by
          simp [collapseWs, hb]] at h
        rcases ih h with h1 | ⟨h2, h3⟩
        · exact Or.inl h1
        · exact Or.inr ⟨by simp [h2, List.mem_cons], h3⟩
      · rw [show collapseWs (a :: d :: r) =
            (if isWsP a then ' ' else a) :: collapseWs (d :: r) by
          simp [collapseWs, hb]] at h
        rcases List.mem_cons.mp h with h1 | h1
        · by_cases ha : isWsP a
          · rw [if_pos ha] at h1
            exact Or.inl h1
          · rw [if_neg ha] at h1
            exact Or.inr ⟨by simp [h1], by rw [h1]; simpa using ha⟩
        · rcases ih h1 with h2 | ⟨h2, h3⟩
          · exact Or.inl h2
          · exact Or.inr ⟨by simp [h2, List.mem_cons], h3⟩

theorem collapseWs_head? (l : List Char) :
    (collapseWs l).head? = l.head?.map (fun c => if isWsP c then ' ' else c) := by
  induction l with
  | nil => rfl
  | cons a tail ih =>
    cases tail with
    | nil =>
      by_cases ha : isWsP a <;> simp [collapseWs, ha]
    | cons d r =>
      by_cases hb : isWsP a && isWsP d
      · have ⟨ha, hd⟩ := Bool.and_eq_true_iff.mp hb
        rw [show collapseWs (a :: d :: r) = collapseWs (d :: r) by simp [collapseWs, hb], ih]
        simp [ha, hd]
      · rw [show collapseWs (a :: d :: r) =
            (if isWsP a then ' ' else a) :: collapseWs (d :: r) by simp [collapseWs, hb]]
        simp

theorem collapseWs_chain : ∀ (l : List Char),
    List.Chain' (fun a b => ¬(isWsP a = true ∧ isWsP b = true)) (collapseWs l) := by
  intro l
  induction l with
  | nil => simp [collapseWs]
  | cons a tail ih =>
    cases tail with
    | nil =>
      by_cases ha : isWsP a <;> simp [collapseWs, ha]
    | cons d r =>
      by_cases hb : isWsP a && isWsP d
      · rw [show collapseWs (a :: d :: r) = collapseWs (d :: r) by simp [collapseWs, hb]]
        exact ih
      · rw [show collapseWs (a :: d :: r) =
            (if isWsP a then ' ' else a) :: collapseWs (d :: r) by simp [collapseWs, hb]]
        rw [List.chain'_cons']
        refine ⟨?_, ih⟩
        intro y hy
        rw [collapseWs_head?] at hy
        simp only [List.head?_cons, Option.map_some'] at hy
        have hnb : isWsP a = false ∨ isWsP d = false := by
          rcases Bool.and_eq_false_iff.mp (by simpa using hb) with h | h
          · exact Or.inl h
          · exact Or.inr h
        rcases hnb with hna | hnd
        · rw [if_neg (by simp [hna])]
          intro ⟨h1, _⟩
          rw [hna] at h1
          exact Bool.false_ne_true h1
        · rw [if_neg (by simp [hnd])] at hy
          intro ⟨_, h2⟩
          have hyd : y = d := by
            have := hy
            simp at this
            exact this.symm
          rw [hyd, hnd] at h2
          exact Bool.false_ne_true h2

theorem collapseWs_eq_self : ∀ {l : List Char},
    List.Chain' (fun a b => ¬(isWsP a = true ∧ isWsP b = true)) l →
    (∀ c ∈ l, isWsP c = true → c = ' ') → collapseWs l = l := by
  intro l
  induction l with
  | nil => intro _ _; rfl
  | cons a tail ih =>
    intro hch hws
    cases tail with
    | nil =>
      by_cases ha : isWsP a
      · simp [collapseWs, ha, hws a (by simp) ha]
      · simp [collapseWs, ha]
    | cons d r =>
      have hnd : ¬(isWsP a = true ∧ isWsP d = true) :=
        (List.chain'_cons.mp hch).1
      have hb : (isWsP a && isWsP d) = false := by
        cases ha : isWsP a with
        | false => simp [ha]
        | true =>
          cases hd : isWsP d with
          | false => simp [hd]
          | true => exact absurd ⟨ha, hd⟩ hnd
      rw [show collapseWs (a :: d :: r) =
          (if isWsP a then ' ' else a) :: collapseWs (d :: r) by simp [collapseWs, hb]]
      have htail : collapseWs (d :: r) = d :: r :=
        ih (List.chain'_cons.mp hch).2 (fun c hc hwc => hws c (by simp [hc, List.mem_cons]) hwc)
      rw [htail]
      by_cases ha : isWsP a
      · rw [if_pos ha, hws a (by simp) ha]
      · rw [if_neg ha]

/-! ## Normalizer lemmas: stripping -/

theorem dropWhile_head?_not {p : Char → Bool} {l : List Char} {c : Char}
    (h : (l.dropWhile p).head? = some c) : p c = false := by
  have := List.head?_dropWhile_not p l
  rw [h] at this
  exact this

theorem dropWhile_eq_self_of_head {p : Char → Bool} {l : List Char}
    (h : ∀ c, l.head? = some c → p c = false) : l.dropWhile p = l := by
  cases l with
  | nil => rfl
  | cons a r =>
    have := h a rfl
    simp [List.dropWhile_cons, this]

theorem pyStrip_prefix_of_drop (l : List Char) :
    ∃ t, (l.dropWhile isWsP) = pyStrip l ++ t := by
  unfold pyStrip
  have hsuf : ((l.dropWhile isWsP).reverse.dropWhile isWsP) <:+ (l.dropWhile isWsP).reverse :=
    List.dropWhile_suffix _
  have hpre : ((l.dropWhile isWsP).reverse.dropWhile isWsP).reverse <+: (l.dropWhile isWsP) := by
    have := List.reverse_prefix.mpr hsuf
    simpa using this
  obtain ⟨t, ht⟩ := hpre
  exact ⟨t, ht.symm⟩

theorem pyStrip_head? {l : List Char} {c : Char}
    (h : (pyStrip l).head? = some c) : isWsP c = false := by
  obtain ⟨t, ht⟩ := pyStrip_prefix_of_drop l
  have hhd : (l.dropWhile isWsP).head? = some c := by
    rw [ht]
    cases hp : pyStrip l with
    | nil => rw [hp] at h; simp at h
    | cons a r =>
      rw [hp] at h
      simp at h
      simp [h]
  exact dropWhile_head?_not hhd

theorem pyStrip_getLast? {l : List Char} {c : Char}
    (h : (pyStrip l).getLast? = some c) : isWsP c = false := by
  unfold pyStrip at h
  rw [List.getLast?_reverse] at h
  exact dropWhile_head?_not h

theorem pyStrip_eq_self {l : List Char}
    (hh : ∀ c, l.head? = some c → isWsP c = false)
    (hl : ∀ c, l.getLast? = some c → isWsP c = false) : pyStrip l = l := by
  unfold pyStrip
  rw [dropWhile_eq_self_of_head hh]
  rw [dropWhile_eq_self_of_head (by
    intro c hc
    rw [List.head?_reverse] at hc
    exact hl c hc)]
  exact List.reverse_reverse l

theorem pyStrip_sublist (l : List Char) : List.Sublist (pyStrip l) l := by
  obtain ⟨t, ht⟩ := pyStrip_prefix_of_drop l
  have h1 : List.Sublist (pyStrip l) (l.dropWhile isWsP) := by
    rw [ht]
    exact List.sublist_append_left _ t
  exact h1.trans (List.dropWhile_sublist _)

theorem pyStrip_mem {l : List Char} {c : Char} (h : c ∈ pyStrip l) : c ∈ l :=
  (pyStrip_sublist l).mem h

theorem pyStrip_chain {R : Char → Char → Prop} {l : List Char}
    (h : List.Chain' R l) : List.Chain' R (pyStrip l) := by
  obtain ⟨t, ht⟩ := pyStrip_prefix_of_drop l
  have h1 : List.Chain' R (l.dropWhile isWsP) := h.suffix (List.dropWhile_suffix _)
  exact h1.prefix ⟨t, ht.symm⟩

/-! ## Normalizer lemmas: character classes -/

theorem isNormChar_cases {c : Char} (h : isNormChar c = true) :
    (97 ≤ c.toNat ∧ c.toNat ≤ 122) ∨ (48 ≤ c.toNat ∧ c.toNat ≤ 57) ∨
      c.toNat = 95 ∨ c.toNat = 32 := by
  simp only [isNormChar, Bool.or_eq_true, Bool.and_eq_true, decide_eq_true_eq] at h
  tauto

theorem pyLower_id_of_norm {c : Char} (h : isNormChar c = true) : pyLower c = c := by
  have hc := isNormChar_cases h
  unfold pyLower
  rw [if_neg (by simp only [Bool.and_eq_true, decide_eq_true_eq]; omega)]
  repeat rw [if_neg (by omega)]

theorem nfdChar_id_of_norm {c : Char} (h : isNormChar c = true) : nfdChar c = [c] := by
  have hc := isNormChar_cases h
  unfold nfdChar
  repeat rw [if_neg (by omega)]

theorem isMn_false_of_norm {c : Char} (h : isNormChar c = true) : isMn c = false := by
  have hc := isNormChar_cases h
  simp only [isMn, Bool.and_eq_false_iff, decide_eq_false_iff_not]
  omega

theorem word_or_ws_of_norm {c : Char} (h : isNormChar c = true) :
    (isWordP c || isWsP c) = true := by
  have hc := isNormChar_cases h
  simp only [isWordP, isWsP, Bool.or_eq_true, Bool.and_eq_true, decide_eq_true_eq]
  omega

theorem flatMap_id_of {f : Char → List Char} {l : List Char}
    (h : ∀ c ∈ l, f c = [c]) : l.flatMap f = l := by
  induction l with
  | nil => rfl
  | cons a r ih =>
    rw [List.flatMap_cons, h a (by simp), ih (fun c hc => h c (by simp [hc]))]
    rfl

theorem toNat_charOfNat_small {n : Nat} (h : n < 55296) : (Char.ofNat n).toNat = n := by
  unfold Char.ofNat
  rw [dif_pos (Or.inl (by omega : n < 55296))]
  rfl

/-- Lower-casing never yields an ASCII capital letter. -/
theorem pyLower_not_upper (x : Char) : ¬(65 ≤ (pyLower x).toNat ∧ (pyLower x).toNat ≤ 90) := by
  unfold pyLower
  split_ifs with h1 h2 h3 h4 h5 h6 h7 h8
  · simp only [Bool.and_eq_true, decide_eq_true_eq] at h1
    rw [toNat_charOfNat_small (by omega)]
    omega
  · rw [toNat_charOfNat_small (by omega)]; omega
  · rw [toNat_charOfNat_small (by omega)]; omega
  · rw [toNat_charOfNat_small (by omega)]; omega
  · rw [toNat_charOfNat_small (by omega)]; omega
  · rw [toNat_charOfNat_small (by omega)]; omega
  · rw [toNat_charOfNat_small (by omega)]; omega
  · rw [toNat_charOfNat_small (by omega)]; omega
  · simp only [Bool.and_eq_true, decide_eq_true_eq] at h1
    omega

/-- NFD decomposition of a non-capital yields no capitals. -/
theorem nfd_not_upper {z y : Char} (hz : ¬(65 ≤ z.toNat ∧ z.toNat ≤ 90))
    (hy : y ∈ nfdChar z) : ¬(65 ≤ y.toNat ∧ y.toNat ≤ 90) := by
  unfold nfdChar at hy
  split_ifs at hy with h1 h2 h3 h4 h5 h6 h7
  · rcases List.mem_cons.mp hy with he | he
    · rw [he, toNat_charOfNat_small (by omega)]; omega
    · rw [List.mem_singleton.mp he, toNat_charOfNat_small (by omega)]; omega
  · rcases List.mem_cons.mp hy with he | he
    · rw [he, toNat_charOfNat_small (by omega)]; omega
    · rw [List.mem_singleton.mp he, toNat_charOfNat_small (by omega)]; omega
  · rcases List.mem_cons.mp hy with he | he
    · rw [he, toNat_charOfNat_small (by omega)]; omega
    · rw [List.mem_singleton.mp he, toNat_charOfNat_small (by omega)]; omega
  · rcases List.mem_cons.mp hy with he | he
    · rw [he, toNat_charOfNat_small (by omega)]; omega
    · rw [List.mem_singleton.mp he, toNat_charOfNat_small (by omega)]; omega
  · rcases List.mem_cons.mp hy with he | he
    · rw [he, toNat_charOfNat_small (by omega)]; omega
    · rw [List.mem_singleton.mp he, toNat_charOfNat_small (by omega)]; omega
  · rcases List.mem_cons.mp hy with he | he
    · rw [he, toNat_charOfNat_small (by omega)]; omega
    · rw [List.mem_singleton.mp he, toNat_charOfNat_small (by omega)]; omega
  · rcases List.mem_cons.mp hy with he | he
    · rw [he, toNat_charOfNat_small (by omega)]; omega
    · rw [List.mem_singleton.mp he, toNat_charOfNat_small (by omega)]; omega
  · rw [List.mem_singleton.mp hy]
    exact hz

theorem char_eq_of_toNat {c d : Char} (h : c.toNat = d.toNat) : c = d :=
  Char.ext (UInt32.toNat.inj h)

theorem map_id_of {f : Char → Char} :
    ∀ {l : List Char}, (∀ c ∈ l, f c = c) → l.map f = l := by
  intro l
  induction l with
  | nil => intro _; rfl
  | cons a r ih =>
    intro h
    rw [List.map_cons, h a (by simp), ih (fun c hc => h c (by simp [hc]))]

/-- Every character of a normalized query is a lower-case letter, a
digit, an underscore, or a space. -/
theorem normChars_mem {l : List Char} {c : Char} (h : c ∈ normChars l) :
    isNormChar c = true := by
  unfold normChars at h
  have h1 := pyStrip_mem h
  rcases collapseWs_mem h1 with hsp | ⟨h2, hws⟩
  · rw [hsp]; decide
  · obtain ⟨b, hb, hgb⟩ := List.mem_map.mp h2
    by_cases hcond : (isWordP b || isWsP b) = true
    · rw [if_pos hcond] at hgb
      subst hgb
      have hb2 : b ∈ ((l.map pyLower).flatMap nfdChar) := List.mem_of_mem_filter hb
      obtain ⟨a, ha, hmem⟩ := List.mem_flatMap.mp hb2
      obtain ⟨x, _, hax⟩ := List.mem_map.mp ha
      rw [← hax] at hmem
      have hnu : ¬(65 ≤ b.toNat ∧ b.toNat ≤ 90) :=
        nfd_not_upper (pyLower_not_upper x) hmem
      rcases Bool.or_eq_true_iff.mp hcond with hw | hwsb
      · simp only [isWordP, Bool.or_eq_true, Bool.and_eq_true, decide_eq_true_eq] at hw
        simp only [isNormChar, Bool.or_eq_true, Bool.and_eq_true, decide_eq_true_eq]
        omega
      · rw [hwsb] at hws
        exact absurd hws (by decide)
    · rw [if_neg hcond] at hgb
      rw [← hgb] at hws
      exact absurd hws (by decide)

/-- The normalizer is a fixed point on its own output, stage by
stage; this is the heart of idempotence. -/
theorem normChars_idem (l : List Char) : normChars (normChars l) = normChars l := by
  have hmem : ∀ c ∈ normChars l, isNormChar c = true := fun c hc => normChars_mem hc
  have s1 : (normChars l).map pyLower = normChars l :=
    map_id_of (fun c hc => pyLower_id_of_norm (hmem c hc))
  have s2 : (normChars l).flatMap nfdChar = normChars l :=
    flatMap_id_of (fun c hc => nfdChar_id_of_norm (hmem c hc))
  have s3 : (normChars l).filter (fun c => !isMn c) = normChars l :=
    List.filter_eq_self.mpr (fun c hc => by rw [isMn_false_of_norm (hmem c hc)]; rfl)
  have s4 : (normChars l).map (fun c => if isWordP c || isWsP c then c else ' ') =
      normChars l :=
    map_id_of (fun c hc => by rw [if_pos (word_or_ws_of_norm (hmem c hc))])
  have hchain : List.Chain' (fun a b => ¬(isWsP a = true ∧ isWsP b = true)) (normChars l) := by
    unfold normChars
    exact pyStrip_chain (collapseWs_chain _)
  have hwsp : ∀ c ∈ normChars l, isWsP c = true → c = ' ' := by
    intro c hc hw
    have hn := isNormChar_cases (hmem c hc)
    simp only [isWsP, Bool.or_eq_true, decide_eq_true_eq] at hw
    exact char_eq_of_toNat (by
      show c.toNat = 32
      omega)
  have s5 : collapseWs (normChars l) = normChars l := collapseWs_eq_self hchain hwsp
  have s6 : pyStrip (normChars l) = normChars l := by
    refine pyStrip_eq_self ?_ ?_
    · intro c hc
      unfold normChars at hc
      exact pyStrip_head? hc
    · intro c hc
      unfold normChars at hc
      exact pyStrip_getLast? hc
  show pyStrip (collapseWs
    (((((normChars l).map pyLower).flatMap nfdChar).filter (fun c => !isMn c)).map
      (fun c => if isWordP c || isWsP c then c else ' '))) = normChars l
  rw [s1, s2, s3, s4, s5, s6]

/-! ## C10: idempotence of the normalizer -/

/-- C10: the text normalizer is idempotent — applying `_norm` to its
own output returns it unchanged, for every input string. -/
theorem c10_norm_idempotent (s : String) : pyNormStr (pyNormStr s) = pyNormStr s := by
  unfold pyNormStr pyNorm
  simp only [Option.getD_some]
  show String.mk (normChars (String.mk (normChars s.data)).data) = String.mk (normChars s.data)
  rw [show (String.mk (normChars s.data)).data = normChars s.data from rfl, normChars_idem]

/-! ## C5: the normalizer against the spec sentence -/

/-- C5 counterexample: the spec sentence says every character that is
not alphanumeric or whitespace is replaced by a space, but Python's
`\w` class keeps the underscore: `_norm` maps `"a_b"` to itself,
while the sentence as written would produce `"a b"`. -/
theorem c5_underscore_cex :
    pyNormStr "a_b" = "a_b" ∧ specNormClaim "a_b" = "a b" ∧ ("a_b" : String) ≠ "a b" := by
  refine ⟨by decide, by decide, by decide⟩

/-- C5 (amended): for every input (including null), `_norm`
lower-cases, decomposes accented characters and strips combining
marks, replaces every character that is not alphanumeric, not an
underscore, and not whitespace with a single space, collapses
whitespace runs to one space, and trims; it is total (null yields
`""`); `normalize("Variación") = "variacion"` and
`normalize("  Top   5!!") = "top 5"`. -/
theorem c5_normalizer_amended :
    (∀ s, pyNormStr s = specNormAmended s) ∧
    pyNorm none = "" ∧
    pyNormStr "Variación" = "variacion" ∧
    pyNormStr "  Top   5!!" = "top 5" := by
  refine ⟨?_, rfl, by decide, by decide⟩
  intro s
  have hcl : ∀ c : Char, (if isWordP c || isWsP c then c else ' ') =
      (if isAlnumSpec c || c = '_' || isWsP c then c else ' ') := by
    intro c
    have h95 : (c = '_') ↔ c.toNat = 95 :=
      ⟨fun h => by rw [h]; rfl, fun h => char_eq_of_toNat h⟩
    have hbool : (isWordP c || isWsP c) = (isAlnumSpec c || decide (c = '_') || isWsP c) := by
      rw [Bool.eq_iff_iff]
      simp only [Bool.or_eq_true, Bool.and_eq_true, decide_eq_true_eq, isWordP,
        isAlnumSpec, isWsP, h95]
    rw [show (if isWordP c || isWsP c then c else ' ') =
        (if (isAlnumSpec c || decide (c = '_') || isWsP c) then c else ' ') by rw [hbool]]
  unfold pyNormStr pyNorm specNormAmended normChars
  simp only [Option.getD_some]
  rw [List.map_congr_left (fun c _ => hcl c)]

theorem isDig_bounds {c : Char} (h : isDig c = true) : 48 ≤ c.toNat ∧ c.toNat ≤ 57 := by
  simpa only [isDig, Bool.and_eq_true, decide_eq_true_eq] using h

theorem isDig_not_ws {c : Char} (h : isDig c = true) : isWsP c = false := by
  have hb := isDig_bounds h
  simp only [isWsP, Bool.or_eq_false_iff, decide_eq_false_iff_not]
  omega

theorem isDig_not_low {c : Char} (h : isDig c = true) : isLowAZ c = false := by
  have hb := isDig_bounds h
  simp only [isLowAZ, Bool.and_eq_false_iff, decide_eq_false_iff_not]
  omega

theorem isDig_pyLower {c : Char} (h : isDig c = true) : pyLower c = c := by
  have hb := isDig_bounds h
  unfold pyLower
  rw [if_neg (by simp only [Bool.and_eq_true, decide_eq_true_eq]; omega)]
  repeat rw [if_neg (by omega)]

theorem isDig_lowerAccent {c : Char} (h : isDig c = true) : lowerAccent c = c := by
  have hb := isDig_bounds h
  simp only [lowerAccent, isDig_pyLower h]
  repeat rw [if_neg (by omega)]

theorem isDig_ne_dot {c : Char} (h : isDig c = true) : ¬(c = '.') := by
  intro he; rw [he] at h; exact absurd h (by decide)

theorem isDig_ne_dash {c : Char} (h : isDig c = true) : ¬(c = '-') := by
  intro he; rw [he] at h; exact absurd h (by decide)

theorem isDig_ne_slash {c : Char} (h : isDig c = true) : ¬(c = '/') := by
  intro he; rw [he] at h; exact absurd h (by decide)

theorem isWsP_space : isWsP ' ' = true := rfl

theorem isWsP_dash : isWsP '-' = false := rfl

theorem isWsP_slash : isWsP '/' = false := rfl

theorem isWsP_dot : isWsP '.' = false := rfl

theorem isWsP_of_low {c : Char} (h : isLowAZ c = true) : isWsP c = false := by
  have hb : 97 ≤ c.toNat ∧ c.toNat ≤ 122 := by
    simpa only [isLowAZ, Bool.and_eq_true, decide_eq_true_eq] using h
  simp only [isWsP, Bool.or_eq_false_iff, decide_eq_false_iff_not]
  omega

theorem pyLower_ground {c : Char} (h : c.toNat < 65) : pyLower c = c := by
  unfold pyLower
  rw [if_neg (by simp only [Bool.and_eq_true, decide_eq_true_eq]; omega)]
  repeat rw [if_neg (by omega)]

theorem lowerAccent_ground {c : Char} (h : c.toNat < 65) : lowerAccent c = c := by
  simp only [lowerAccent, pyLower_ground h]
  repeat rw [if_neg (by omega)]

theorem pyLower_low {c : Char} (h : isLowAZ c = true) : pyLower c = c := by
  have hb : 97 ≤ c.toNat ∧ c.toNat ≤ 122 := by
    simpa only [isLowAZ, Bool.and_eq_true, decide_eq_true_eq] using h
  unfold pyLower
  rw [if_neg (by simp only [Bool.and_eq_true, decide_eq_true_eq]; omega)]
  repeat rw [if_neg (by omega)]

theorem lowerAccent_low {c : Char} (h : isLowAZ c = true) : lowerAccent c = c := by
  have hb : 97 ≤ c.toNat ∧ c.toNat ≤ 122 := by
    simpa only [isLowAZ, Bool.and_eq_true, decide_eq_true_eq] using h
  simp only [lowerAccent, pyLower_low h]
  repeat rw [if_neg (by omega)]

set_option maxHeartbeats 1000000 in
/-- C4: every label of the expected pattern (a Spanish month abbreviation
from the table, an optional trailing dot, an optional dash-or-slash
separator with optional surrounding spaces, four digits) parses to
year*100+month; "Jul-2025" gives 202507, "sept. 2024" gives 202409
(month 9, distinct from the 3-letter prefixes), an unrecognized
abbreviation ("xyz-2024") gives none, and a non-matching label
("garbage") gives none. -/
theorem c4_periodo_key :
    (∀ p ∈ monthsEs,
      ∀ dot ∈ (["", "."] : List String),
      ∀ sep ∈ (["", "-", "/", " ", " - ", " / "] : List String),
      ∀ d1 d2 d3 d4 : Char, isDig d1 = true → isDig d2 = true →
        isDig d3 = true → isDig d4 = true →
        periodoKey (p.1 ++ dot ++ sep ++ String.mk [d1, d2, d3, d4]) =
          some (((d1.toNat - 48) * 1000 + (d2.toNat - 48) * 100 + (d3.toNat - 48) * 10 +
            (d4.toNat - 48)) * 100 + p.2))
    ∧ periodoKey "Jul-2025" = some 202507
    ∧ periodoKey "sept. 2024" = some 202409
    ∧ periodoKey "xyz-2024" = none
    ∧ periodoKey "garbage" = none := by
  refine ⟨?_, by decide, by decide, by decide, by decide⟩
  intro p hp dot hdot sep hsep d1 d2 d3 d4 h1 h2 h3 h4
  fin_cases hp <;>
    fin_cases hdot <;>
      fin_cases hsep <;>
        simp +decide [periodoKey, String.data_append, pyStrip, reMatchPeriodo, tryMon, afterMon,
          digit4, monAbbrev, monthLookup, monthsEs, List.dropWhile, Option.orElse,
          lowerAccent_ground, lowerAccent_low, isWsP_space, isWsP_dash, isWsP_slash, isWsP_dot,
          isWsP_of_low,
          isDig_not_ws h1, isDig_not_ws h2, isDig_not_ws h3, isDig_not_ws h4,
          isDig_not_low h1, isDig_not_low h2, isDig_not_low h3, isDig_not_low h4,
          isDig_lowerAccent h1, isDig_lowerAccent h2, isDig_lowerAccent h3, isDig_lowerAccent h4,
          isDig_ne_dot h1, isDig_ne_dash h1, isDig_ne_slash h1, h1, h2, h3, h4]

theorem c4_periodo_key_witness :
    ("ene", 1) ∈ monthsEs ∧ "" ∈ (["", "."] : List String) ∧
    "-" ∈ (["", "-", "/", " ", " - ", " / "] : List String) ∧ isDig '2' = true ∧
    periodoKey ("ene" ++ "" ++ "-" ++ String.mk ['2', '0', '2', '4']) = some 202401 := by
  refine ⟨by decide, by decide, by decide, by decide, ?_⟩
  have h := c4_periodo_key.1 ("ene", 1) (by decide) "" (by decide) "-" (by decide)
    '2' '0' '2' '4' rfl rfl rfl rfl
  simpa using h
